import Mathlib

/-! Shallow embedding of the nargo circuit build-and-preprocessing pipeline
(`crates/nargo_cli/src/cli/compile_cmd.rs`).

Pure data is translated directly from the source.  External collaborators
(the acvm optimizer, the proving backend, the frontend compiler) are modelled
as abstract function fields of `Backend` / `Frontend` structures, following
the external-interface contracts of the specification.  File-system effects
(reading and writing the cached common reference string, saving artifacts)
are modelled as events in an explicit trace that every operation returns
alongside its result, so that temporal claims about the build can be stated
as properties of the trace. -/

namespace Nargo

/-- Opaque source-location metadata (the orchestrator never inspects it). -/
abbrev Loc := Nat

/-- The common reference string: an opaque byte blob, modelled as a list. -/
abbrev CRS := List Nat

/-- A circuit is an ordered sequence of opcodes; the orchestrator treats
opcodes opaquely, so they are modelled as atoms. -/
structure Circuit where
  opcodes : List Nat
deriving Repr, DecidableEq

/-- `acvm::acir::circuit::OpcodeLabel`: tag on each opcode of an optimized
circuit, either unresolved or pointing back into the original opcode list. -/
inductive OpcodeLabel where
  | Unresolved
  | Resolved (index : Nat)
deriving Repr, DecidableEq

/-- Debug info: one source-location entry per opcode position. -/
structure DebugInfo where
  locations : List Loc
deriving Repr, DecidableEq

/-- `noirc_driver::CompiledProgram`: the frontend's output for a binary
package (circuit plus debug info; interface metadata is irrelevant here). -/
structure CompiledProgram where
  circuit : Circuit
  debug : DebugInfo
deriving Repr, DecidableEq

/-- One function of a compiled contract.  Modelled from the spec: the data
model says a contract function is "essentially a CompiledProgram", i.e. a
named circuit with its debug info. -/
structure ContractFunction where
  name : String
  bytecode : Circuit
  debug : DebugInfo
deriving Repr, DecidableEq

/-- A compiled contract: a name with a list of compiled functions. -/
structure CompiledContract where
  name : String
  functions : List ContractFunction
deriving Repr, DecidableEq

/-- A frontend diagnostic; the orchestrator only cares whether it is a
warning or an error. -/
structure Diagnostic where
  isWarning : Bool
deriving Repr, DecidableEq

abbrev Warnings := List Diagnostic
abbrev ErrorsAndWarnings := List Diagnostic

/-- `nargo::package::PackageType`. -/
inductive PackageType where
  | Binary
  | Library
  | Contract
deriving Repr, DecidableEq

/-- `nargo::package::Package` (only the fields the pipeline consults). -/
structure Package where
  name : String
  ptype : PackageType
deriving Repr, DecidableEq

/-- Modelled from the spec: `Package::is_contract` (nargo crate, not under
src/): a package is a contract package iff its type is Contract. -/
def Package.is_contract (p : Package) : Bool :=
  match p.ptype with
  | .Contract => true
  | _ => false

/-- Modelled from the spec: `Package::is_library` (nargo crate, not under
src/): a package is a library package iff its type is Library. -/
def Package.is_library (p : Package) : Bool :=
  match p.ptype with
  | .Library => true
  | _ => false

/-- `nargo::NargoError` (only the variant this file produces). -/
inductive NargoError where
  | CompilationError
deriving Repr, DecidableEq

/-- `crate::errors::CompileError` (the variants reachable from this file):
a library crate cannot be compiled, or frontend diagnostics were reported. -/
inductive CompileError where
  | LibraryCrate (name : String)
  | ReportedErrors (count : Nat)
deriving Repr, DecidableEq

/-- `crate::errors::CliError` (the variants reachable from this file). -/
inductive CliError where
  | CompileError (e : CompileError)
  | NargoError (e : NargoError)
  | CommonReferenceStringError (msg : String)
  | ProofSystemCompilerError (msg : String)
deriving Repr, DecidableEq

/-- Backend-produced preprocessed function artifact (opaque). -/
structure PreprocessedContractFunction where
  data : Nat
deriving Repr, DecidableEq

/-- Backend-produced preprocessed program artifact (opaque). -/
structure PreprocessedProgram where
  data : Nat
deriving Repr, DecidableEq

/-- `nargo::artifacts::contract::PreprocessedContract`: the contract artifact
assembled by `run`: name, backend identifier string, preprocessed functions. -/
structure PreprocessedContract where
  name : String
  backend : String
  functions : List PreprocessedContractFunction
deriving Repr, DecidableEq

/-- The external proving backend, per the specification's external-interface
section: the acvm optimizing compiler specialised to this backend's supported
opcodes (`acvm::compiler::compile`, returning `none` on failure), the CRS
update operation (`update_common_reference_string`, nargo_cli fs module, not
under src/), and the two preprocessing operations (`nargo::ops`, not under
src/).  `identifier` names the backend (the spec's invariant and the source's
TODO about `BACKEND_IDENTIFIER` require backends to be identifiable); the
compiled code never reads it. -/
structure Backend where
  identifier : String
  acvmCompile : Circuit → Option (Circuit × List OpcodeLabel)
  updateCrs : CRS → Circuit → Except String CRS
  preprocessProgramFn : Bool → CRS → CompiledProgram → Except String (PreprocessedProgram × Nat)
  preprocessContractFunctionFn : Bool → CRS → ContractFunction → Except String PreprocessedContractFunction

/-- The external frontend compiler, per the specification's external-interface
section: `compile_main` / `compile_contracts` (noirc_driver, not under src/),
each returning either a result with warnings or the error diagnostics. -/
structure Frontend where
  compileMain : Package → Except ErrorsAndWarnings (CompiledProgram × Warnings)
  compileContracts : Package → Except ErrorsAndWarnings (List CompiledContract × Warnings)

/-- `const BACKEND_IDENTIFIER: &str = "acvm-backend-barretenberg"` -/
def BACKEND_IDENTIFIER : String := "acvm-backend-barretenberg"

/-- Modelled from the spec: `noirc_errors::reporter::report_all` (noirc_errors
crate, not under src/) prints every diagnostic and returns the number reported
as errors; under `deny_warnings` warnings are reported as errors, so every
diagnostic counts. -/
def report_all (diagnostics : List Diagnostic) (deny_warnings : Bool) : Nat :=
  (diagnostics.filter (fun d => !d.isWarning || deny_warnings)).length

/-- `report_errors` (compile_cmd.rs lines 167-178): on a frontend error the
reported error count becomes a `CompileError`; on success the warnings are
reported but the returned count is discarded and the value is returned. -/
def report_errors {T : Type} (result : Except ErrorsAndWarnings (T × Warnings))
    (deny_warnings : Bool) : Except CompileError T :=
  match result with
  | .error errors => .error (.ReportedErrors (report_all errors deny_warnings))
  | .ok (t, warnings) =>
    let _ := report_all warnings deny_warnings
    .ok t

/-- Modelled from the spec: `DebugInfo::update_acir` (noirc_errors crate, not
under src/): for each new opcode position, copy the source-location entry at
the original index its resolved label points to. -/
def DebugInfo.update_acir (debug : DebugInfo) (update_map : List Nat) : DebugInfo :=
  ⟨update_map.map (fun i => (debug.locations.get? i).getD 0)⟩

/-- The `vecmap` over opcode labels in `compile_package` (lines 142-147):
extract every resolved index; `none` models reaching the fatal
`unreachable` branch on an `Unresolved` label. -/
def resolveLabels : List OpcodeLabel → Option (List Nat)
  | [] => some []
  | .Unresolved :: _ => none
  | .Resolved i :: rest => (resolveLabels rest).map (fun ids => i :: ids)

/-- `optimize_circuit` (lines 153-163): run the acvm optimizing compiler for
this backend; any acvm error is collapsed to `NargoError::CompilationError`
and surfaced as a `CliError`. -/
def optimize_circuit (backend : Backend) (circuit : Circuit) :
    Except CliError (Circuit × List OpcodeLabel) :=
  match backend.acvmCompile circuit with
  | none => .error (.NargoError .CompilationError)
  | some result => .ok result

/-- Modelled from the spec: `update_common_reference_string` (nargo_cli fs
module, not under src/) asks the backend for a CRS covering the circuit. -/
def update_common_reference_string (backend : Backend) (crs : CRS) (circuit : Circuit) :
    Except String CRS :=
  backend.updateCrs crs circuit

/-- Modelled from the spec: `preprocess_contract_function` (nargo crate, not
under src/) produces the backend artifact for one contract function. -/
def preprocess_contract_function (backend : Backend) (include_keys : Bool) (crs : CRS)
    (func : ContractFunction) : Except String PreprocessedContractFunction :=
  backend.preprocessContractFunctionFn include_keys crs func

/-- Modelled from the spec: `preprocess_program` (nargo crate, not under
src/) produces the backend artifact (plus key material) for a program. -/
def preprocess_program (backend : Backend) (include_keys : Bool) (crs : CRS)
    (program : CompiledProgram) : Except String (PreprocessedProgram × Nat) :=
  backend.preprocessProgramFn include_keys crs program

/-- Observable actions of one build, in order of occurrence: reading the CRS
cache, frontend compile calls, per-function processing, optimizer calls (with
their input and result), CRS updates (input CRS, circuit, output CRS),
preprocessing calls (with the CRS and payload handed to the backend), artifact
saves, and the final CRS cache write. -/
inductive Event where
  | readCrsCache (crs : CRS)
  | compileContractsCall (package : String)
  | compileMainCall (package : String)
  | functionStart (func : ContractFunction)
  | optimizeCall (input : Circuit) (result : Option (Circuit × List OpcodeLabel))
  | crsUpdate (input : CRS) (circuit : Circuit) (output : CRS)
  | preprocessFunction (crs : CRS) (func : ContractFunction)
  | preprocessProgramCall (crs : CRS) (circuit : Circuit)
  | saveContract (file : String) (contract : PreprocessedContract)
  | saveProgram (package : String)
  | writeCrsCache (crs : CRS)
deriving Repr, DecidableEq

/-- Outcome of a computation that may also abort with a Rust panic. -/
inductive PanicOr (ε α : Type) where
  | panicked (msg : String)
  | error (e : ε)
  | ok (a : α)
deriving Repr, DecidableEq

/-- The body of the per-function closure in `run` (lines 73-89): optimize the
function's bytecode (discarding the returned opcode labels), update the CRS
with the optimized circuit, then preprocess the function whose bytecode has
been replaced by the optimized circuit. -/
def processFunction (b : Backend) (include_keys : Bool) (crs : CRS) (func : ContractFunction) :
    Except CliError (PreprocessedContractFunction × CRS) × List Event :=
  match optimize_circuit b func.bytecode with
  | .error e => (.error e, [.functionStart func, .optimizeCall func.bytecode none])
  | .ok (c', ls) =>
    match update_common_reference_string b crs c' with
    | .error msg =>
      (.error (.CommonReferenceStringError msg),
       [.functionStart func, .optimizeCall func.bytecode (some (c', ls))])
    | .ok crs' =>
      match preprocess_contract_function b include_keys crs' { func with bytecode := c' } with
      | .error msg =>
        (.error (.ProofSystemCompilerError msg),
         [.functionStart func, .optimizeCall func.bytecode (some (c', ls)),
          .crsUpdate crs c' crs', .preprocessFunction crs' { func with bytecode := c' }])
      | .ok pf =>
        (.ok (pf, crs'),
         [.functionStart func, .optimizeCall func.bytecode (some (c', ls)),
          .crsUpdate crs c' crs', .preprocessFunction crs' { func with bytecode := c' }])

/-- The `try_vecmap` over a contract's functions (lines 72-89), threading the
mutably captured CRS from one function to the next and stopping at the first
error. -/
def processFunctions (b : Backend) (include_keys : Bool) (crs : CRS) :
    List ContractFunction → Except CliError (List PreprocessedContractFunction × CRS) × List Event
  | [] => (.ok ([], crs), [])
  | f :: fs =>
    match processFunction b include_keys crs f with
    | (.error e, evs) => (.error e, evs)
    | (.ok (pf, crs'), evs) =>
      match processFunctions b include_keys crs' fs with
      | (.error e, evs') => (.error e, evs ++ evs')
      | (.ok (pfs, crs''), evs') => (.ok (pf :: pfs, crs''), evs ++ evs')

/-- The `try_vecmap` over the compiled contracts (lines 70-96): process every
function of every contract, wrapping each contract's preprocessed functions in
a `PreprocessedContract` stamped with the constant `BACKEND_IDENTIFIER`. -/
def processContracts (b : Backend) (include_keys : Bool) (crs : CRS) :
    List CompiledContract → Except CliError (List PreprocessedContract × CRS) × List Event
  | [] => (.ok ([], crs), [])
  | c :: cs =>
    match processFunctions b include_keys crs c.functions with
    | (.error e, evs) => (.error e, evs)
    | (.ok (pfs, crs'), evs) =>
      match processContracts b include_keys crs' cs with
      | (.error e, evs') => (.error e, evs ++ evs')
      | (.ok (pcs, crs''), evs') =>
        (.ok ({ name := c.name, backend := BACKEND_IDENTIFIER, functions := pfs } :: pcs, crs''),
         evs ++ evs')

/-- The save loop over preprocessed contracts (lines 97-103): each contract is
written to `"{package.name}-{contract.name}"`. -/
def saveContracts (pkgName : String) : List PreprocessedContract → List Event
  | [] => []
  | c :: cs => .saveContract (pkgName ++ "-" ++ c.name) c :: saveContracts pkgName cs

/-- `compile_package` (lines 123-151): reject library packages, compile
`main`, report diagnostics, optimize (a failure here hits `.expect`, a panic),
resolve every opcode label (an `Unresolved` label hits `unreachable`, a
panic), and rewrite the debug info through the resolved indices. -/
def compile_package (b : Backend) (fe : Frontend) (package : Package) (deny_warnings : Bool) :
    PanicOr CompileError CompiledProgram × List Event :=
  if package.is_library then (.error (.LibraryCrate package.name), [])
  else
    match report_errors (fe.compileMain package) deny_warnings with
    | .error e => (.error e, [.compileMainCall package.name])
    | .ok program =>
      match optimize_circuit b program.circuit with
      | .error _ =>
        (.panicked "Backend does not support an opcode that is in the IR",
         [.compileMainCall package.name, .optimizeCall program.circuit none])
      | .ok (c', ls) =>
        match resolveLabels ls with
        | none =>
          (.panicked "Compiled circuit opcodes must resolve to some index",
           [.compileMainCall package.name, .optimizeCall program.circuit (some (c', ls))])
        | some ids =>
          (.ok { circuit := c', debug := program.debug.update_acir ids },
           [.compileMainCall package.name, .optimizeCall program.circuit (some (c', ls))])

/-- The body of the per-package loop in `run` (lines 59-116): the contract
branch compiles every contract, processes all of their functions, and only
then saves each contract artifact; the program branch compiles the package,
updates the CRS with the (already optimized) circuit, preprocesses and saves
the program. -/
def processPackage (b : Backend) (fe : Frontend) (include_keys deny_warnings : Bool)
    (crs : CRS) (pkg : Package) : PanicOr CliError CRS × List Event :=
  if pkg.is_contract then
    match report_errors (fe.compileContracts pkg) deny_warnings with
    | .error e => (.error (.CompileError e), [.compileContractsCall pkg.name])
    | .ok contracts =>
      match processContracts b include_keys crs contracts with
      | (.error e, evs) => (.error e, .compileContractsCall pkg.name :: evs)
      | (.ok (pcs, crs'), evs) =>
        (.ok crs', .compileContractsCall pkg.name :: evs ++ saveContracts pkg.name pcs)
  else
    match compile_package b fe pkg deny_warnings with
    | (.panicked m, evs) => (.panicked m, evs)
    | (.error e, evs) => (.error (.CompileError e), evs)
    | (.ok program, evs) =>
      match update_common_reference_string b crs program.circuit with
      | .error msg => (.error (.CommonReferenceStringError msg), evs)
      | .ok crs' =>
        match preprocess_program b include_keys crs' program with
        | .error msg =>
          (.error (.ProofSystemCompilerError msg),
           evs ++ [.crsUpdate crs program.circuit crs', .preprocessProgramCall crs' program.circuit])
        | .ok _ =>
          (.ok crs',
           evs ++ [.crsUpdate crs program.circuit crs', .preprocessProgramCall crs' program.circuit,
                   .saveProgram pkg.name])

/-- The `for package in &workspace` loop of `run`, threading the CRS from one
package to the next and stopping at the first error or panic. -/
def runLoop (b : Backend) (fe : Frontend) (include_keys deny_warnings : Bool) (crs : CRS) :
    List Package → PanicOr CliError CRS × List Event
  | [] => (.ok crs, [])
  | p :: ps =>
    match processPackage b fe include_keys deny_warnings crs p with
    | (.panicked m, evs) => (.panicked m, evs)
    | (.error e, evs) => (.error e, evs)
    | (.ok crs', evs) =>
      match runLoop b fe include_keys deny_warnings crs' ps with
      | (r, evs') => (r, evs ++ evs')

/-- `run` (lines 48-121): read the cached CRS once, process every package of
the workspace in order, and on success write the final CRS back to the cache.
The cache read (`read_cached_common_reference_string`) and write
(`write_cached_common_reference_string`) live in the nargo_cli fs module (not
under src/) and are modelled from the spec as the `cached` input value plus
explicit trace events. -/
def run (b : Backend) (fe : Frontend) (include_keys deny_warnings : Bool) (cached : CRS)
    (workspace : List Package) : PanicOr CliError Unit × List Event :=
  match runLoop b fe include_keys deny_warnings cached workspace with
  | (.panicked m, evs) => (.panicked m, .readCrsCache cached :: evs)
  | (.error e, evs) => (.error e, .readCrsCache cached :: evs)
  | (.ok crs', evs) => (.ok (), .readCrsCache cached :: evs ++ [.writeCrsCache crs'])

/-! Concrete fixtures used by examples, counterexamples and witnesses. -/

/-- A contract function with two opcodes and two debug entries. -/
def f0 : ContractFunction := { name := "foo", bytecode := ⟨[7, 8]⟩, debug := ⟨[10, 20]⟩ }

/-- The same function after optimization dropped its first opcode. -/
def g0 : ContractFunction := { name := "foo", bytecode := ⟨[8]⟩, debug := ⟨[10, 20]⟩ }

/-- A one-function contract. -/
def contract0 : CompiledContract := { name := "Main", functions := [f0] }

/-- A contract package. -/
def pkgC : Package := { name := "p", ptype := .Contract }

/-- A binary package. -/
def pkgB : Package := { name := "b", ptype := .Binary }

/-- A library package. -/
def pkgL : Package := { name := "l", ptype := .Library }

/-- The program the test frontend produces for binary packages. -/
def progA : CompiledProgram := { circuit := ⟨[7, 8]⟩, debug := ⟨[10, 20]⟩ }

/-- A test backend whose optimizer drops the first opcode of every circuit
(labelling the survivors with their original indices), whose CRS update
appends the circuit size, and which is not barretenberg. -/
def backendA : Backend :=
  { identifier := "mock-backend"
    acvmCompile := fun c =>
      match c.opcodes with
      | [] => none
      | _ :: rest => some (⟨rest⟩, (List.range rest.length).map (fun i => .Resolved (i + 1)))
    updateCrs := fun crs c => .ok (crs ++ [c.opcodes.length])
    preprocessProgramFn := fun _ crs _ => .ok (⟨crs.length⟩, 0)
    preprocessContractFunctionFn := fun _ crs f => .ok ⟨crs.length + f.bytecode.opcodes.length⟩ }

/-- A test backend whose optimizer rejects every circuit. -/
def backendFail : Backend :=
  { identifier := "mock-backend"
    acvmCompile := fun _ => none
    updateCrs := fun crs _ => .ok crs
    preprocessProgramFn := fun _ crs _ => .ok (⟨crs.length⟩, 0)
    preprocessContractFunctionFn := fun _ crs _ => .ok ⟨crs.length⟩ }

/-- A test backend whose optimizer returns an `Unresolved` opcode label. -/
def backendUnresolved : Backend :=
  { identifier := "mock-backend"
    acvmCompile := fun c => some (c, [.Unresolved])
    updateCrs := fun crs _ => .ok crs
    preprocessProgramFn := fun _ crs _ => .ok (⟨crs.length⟩, 0)
    preprocessContractFunctionFn := fun _ crs _ => .ok ⟨crs.length⟩ }

/-- A test frontend that compiles every binary package to `progA` (with no
warnings) and every contract package to the one-function `contract0`. -/
def frontendA : Frontend :=
  { compileMain := fun _ => .ok (progA, [])
    compileContracts := fun _ => .ok ([contract0], []) }

/-- The contract artifact `run` produces for `pkgC` under `backendA`. -/
def pc0 : PreprocessedContract :=
  { name := "Main", backend := BACKEND_IDENTIFIER, functions := [⟨2⟩] }

example : (run backendA frontendA false false [] [pkgC]).1 = .ok () := by decide

example : (run backendA frontendA false false [] [pkgC]).2 =
    [.readCrsCache [], .compileContractsCall "p", .functionStart f0,
     .optimizeCall ⟨[7, 8]⟩ (some (⟨[8]⟩, [.Resolved 1])),
     .crsUpdate [] ⟨[8]⟩ [1], .preprocessFunction [1] g0,
     .saveContract "p-Main" pc0, .writeCrsCache [1]] := by decide

example : (run backendFail frontendA false false [] [pkgB]).1 =
    .panicked "Backend does not support an opcode that is in the IR" := by decide

/-! Trace-property vocabulary. -/

/-- Whether an event is the CRS cache read. -/
def Event.isRead : Event → Bool
  | .readCrsCache _ => true
  | _ => false

/-- Whether an event is the CRS cache write. -/
def Event.isWrite : Event → Bool
  | .writeCrsCache _ => true
  | _ => false

/-- Whether an event is neither a cache read nor a cache write (the loop body
never touches the cache). -/
def Event.isInner : Event → Bool
  | .readCrsCache _ => false
  | .writeCrsCache _ => false
  | _ => true

/-- Whether an event is a failed optimizer call. -/
def Event.isFailedOpt : Event → Bool
  | .optimizeCall _ none => true
  | _ => false

/-- Whether an event is a CRS update. -/
def Event.isUpd : Event → Bool
  | .crsUpdate _ _ _ => true
  | _ => false

/-- Whether an event is a contract-artifact save. -/
def Event.isSaveContract : Event → Bool
  | .saveContract _ _ => true
  | _ => false

/-- The CRS updates of a trace, as (input, circuit, output) triples in order
of occurrence. -/
def updatesOf (es : List Event) : List (CRS × Circuit × CRS) :=
  es.filterMap (fun e =>
    match e with
    | .crsUpdate i c o => some (i, c, o)
    | _ => none)

/-- The update triples form a chain starting from `crs`: each update's input
CRS is exactly the output of the previous update (the first one's input is
`crs` itself). -/
def chainedFrom : CRS → List (CRS × Circuit × CRS) → Prop
  | _, [] => True
  | crs, (i, _, o) :: rest => i = crs ∧ chainedFrom o rest

/-- The CRS after folding the update triples over the initial value. -/
def lastCrs : CRS → List (CRS × Circuit × CRS) → CRS
  | crs, [] => crs
  | _, (_, _, o) :: rest => lastCrs o rest

/-- Relation between adjacent trace events: a CRS update may only follow a
successful optimizer call whose output circuit is exactly the circuit handed
to the update. -/
def updAfterOpt : Event → Event → Prop := fun e e' =>
  ∀ i c o, e' = Event.crsUpdate i c o → ∃ c₀ ls, e = Event.optimizeCall c₀ (some (c, ls))

/-- A trace does not begin with a CRS update. -/
def noLeadingUpd (es : List Event) : Prop :=
  ∀ i c o, es.head? ≠ some (Event.crsUpdate i c o)

/-- Whether an event is something other than the start of a contract
function's processing or the preprocessing of a contract function; such
events may appear freely between complete per-function blocks. -/
def Event.isOtherEv : Event → Bool
  | .functionStart _ => false
  | .preprocessFunction _ _ => false
  | _ => true

/-- Traces that decompose into per-contract-function blocks, each of which
performs, in order: start on function `f`; optimize `f.bytecode`; and, when
optimization succeeds with circuit `c'`, a CRS update on exactly `c'`
followed by preprocessing the function `f` with only its bytecode replaced by
`c'` (name and debug info untouched, the opcode labels discarded).  A block
whose optimizer call fails ends the block there; all other events are free. -/
inductive CompleteEvs : List Event → Prop
  | nil : CompleteEvs []
  | other {e : Event} {rest : List Event} (he : e.isOtherEv = true) (h : CompleteEvs rest) :
      CompleteEvs (e :: rest)
  | funcFail {f : ContractFunction} {rest : List Event} (h : CompleteEvs rest) :
      CompleteEvs (.functionStart f :: .optimizeCall f.bytecode none :: rest)
  | funcFull {f : ContractFunction} {c' : Circuit} {ls : List OpcodeLabel}
      {i o crs₂ : CRS} {rest : List Event} (h : CompleteEvs rest) :
      CompleteEvs (.functionStart f :: .optimizeCall f.bytecode (some (c', ls)) ::
        .crsUpdate i c' o :: .preprocessFunction crs₂ { f with bytecode := c' } :: rest)

/-- Traces made of complete per-function blocks, possibly ending in a block
cut short after a successful optimizer call (the shape a trace takes when the
CRS update for that function fails and the build aborts). -/
def GoodEvs (es : List Event) : Prop :=
  CompleteEvs es ∨
  ∃ es₀ f c' ls, CompleteEvs es₀ ∧
    es = es₀ ++ [Event.functionStart f, Event.optimizeCall f.bytecode (some (c', ls))]

/-- All contract-artifact saves of a trace form a terminal contiguous run:
once a contract is saved, every remaining event is also a contract save. -/
def savesAreTerminal : List Event → Bool
  | [] => true
  | e :: rest =>
    if e.isSaveContract then rest.all (fun x => x.isSaveContract) else savesAreTerminal rest

/-! Basic lemmas about the trace vocabulary. -/

theorem updatesOf_append (l₁ l₂ : List Event) :
    updatesOf (l₁ ++ l₂) = updatesOf l₁ ++ updatesOf l₂ :=
  List.filterMap_append l₁ l₂ _

theorem chainedFrom_append {crs : CRS} {us₁ us₂ : List (CRS × Circuit × CRS)}
    (h₁ : chainedFrom crs us₁) (h₂ : chainedFrom (lastCrs crs us₁) us₂) :
    chainedFrom crs (us₁ ++ us₂) := by
  induction us₁ generalizing crs with
  | nil => simpa [chainedFrom, lastCrs] using h₂
  | cons u rest ih =>
    obtain ⟨i, c, o⟩ := u
    exact ⟨h₁.1, ih h₁.2 h₂⟩

theorem lastCrs_append (crs : CRS) (us₁ us₂ : List (CRS × Circuit × CRS)) :
    lastCrs crs (us₁ ++ us₂) = lastCrs (lastCrs crs us₁) us₂ := by
  induction us₁ generalizing crs with
  | nil => rfl
  | cons u rest ih =>
    obtain ⟨i, c, o⟩ := u
    exact ih o

theorem resolveLabels_eq_none_iff (ls : List OpcodeLabel) :
    resolveLabels ls = none ↔ OpcodeLabel.Unresolved ∈ ls := by
  induction ls with
  | nil => simp [resolveLabels]
  | cons l rest ih =>
    cases l with
    | Unresolved => simp [resolveLabels]
    | Resolved i => simp [resolveLabels, Option.map_eq_none', ih]

theorem resolveLabels_some_spec {ls : List OpcodeLabel} {ids : List Nat}
    (h : resolveLabels ls = some ids) :
    ids.length = ls.length ∧
    ∀ j, j < ls.length → ∃ i, ls.get? j = some (.Resolved i) ∧ ids.get? j = some i := by
  induction ls generalizing ids with
  | nil =>
    simp only [resolveLabels, Option.some.injEq] at h
    subst h
    simp
  | cons l rest ih =>
    cases l with
    | Unresolved => simp [resolveLabels] at h
    | Resolved i =>
      simp only [resolveLabels, Option.map_eq_some'] at h
      obtain ⟨ids', hrest, hids⟩ := h
      subst hids
      obtain ⟨hlen, hspec⟩ := ih hrest
      refine ⟨by simp [hlen], ?_⟩
      intro j hj
      cases j with
      | zero => exact ⟨i, by simp, by simp⟩
      | succ j' =>
        simp only [List.length_cons] at hj
        obtain ⟨i', h1, h2⟩ := hspec j' (by omega)
        exact ⟨i', by simpa using h1, by simpa using h2⟩

/-! Shape lemmas: exhaustive case descriptions of the two straight-line
operations, from which every trace property below is derived. -/

theorem processFunction_shape (b : Backend) (ik : Bool) (crs : CRS) (f : ContractFunction) :
    (∃ e, optimize_circuit b f.bytecode = .error e ∧
      processFunction b ik crs f =
        (.error e, [.functionStart f, .optimizeCall f.bytecode none])) ∨
    (∃ c' ls msg, optimize_circuit b f.bytecode = .ok (c', ls) ∧
      b.updateCrs crs c' = .error msg ∧
      processFunction b ik crs f =
        (.error (.CommonReferenceStringError msg),
         [.functionStart f, .optimizeCall f.bytecode (some (c', ls))])) ∨
    (∃ c' ls crs' res, optimize_circuit b f.bytecode = .ok (c', ls) ∧
      b.updateCrs crs c' = .ok crs' ∧
      ((∃ msg, b.preprocessContractFunctionFn ik crs' { f with bytecode := c' } = .error msg ∧
          res = Except.error (CliError.ProofSystemCompilerError msg)) ∨
       (∃ pf, b.preprocessContractFunctionFn ik crs' { f with bytecode := c' } = .ok pf ∧
          res = Except.ok (pf, crs'))) ∧
      processFunction b ik crs f =
        (res, [.functionStart f, .optimizeCall f.bytecode (some (c', ls)),
               .crsUpdate crs c' crs', .preprocessFunction crs' { f with bytecode := c' }])) := by
  rcases hopt : optimize_circuit b f.bytecode with e | ⟨c', ls⟩
  · exact Or.inl ⟨e, rfl, by simp [processFunction, hopt]⟩
  · rcases hupd : b.updateCrs crs c' with msg | crs'
    · refine Or.inr (Or.inl ⟨c', ls, msg, rfl, hupd, ?_⟩)
      simp [processFunction, hopt, update_common_reference_string, hupd]
    · rcases hpre : b.preprocessContractFunctionFn ik crs' { f with bytecode := c' } with msg | pf
      · refine Or.inr (Or.inr ⟨c', ls, crs', _, rfl, hupd, Or.inl ⟨msg, hpre, rfl⟩, ?_⟩)
        simp [processFunction, hopt, update_common_reference_string, hupd,
          preprocess_contract_function, hpre]
      · refine Or.inr (Or.inr ⟨c', ls, crs', _, rfl, hupd, Or.inr ⟨pf, hpre, rfl⟩, ?_⟩)
        simp [processFunction, hopt, update_common_reference_string, hupd,
          preprocess_contract_function, hpre]

theorem compile_package_shape (b : Backend) (fe : Frontend) (pkg : Package) (dw : Bool) :
    (pkg.is_library = true ∧
      compile_package b fe pkg dw = (.error (.LibraryCrate pkg.name), [])) ∨
    (pkg.is_library = false ∧ ∃ errs, fe.compileMain pkg = .error errs ∧
      compile_package b fe pkg dw =
        (.error (.ReportedErrors (report_all errs dw)), [.compileMainCall pkg.name])) ∨
    (pkg.is_library = false ∧ ∃ prog₀ w, fe.compileMain pkg = .ok (prog₀, w) ∧
      ((b.acvmCompile prog₀.circuit = none ∧
         compile_package b fe pkg dw =
           (.panicked "Backend does not support an opcode that is in the IR",
            [.compileMainCall pkg.name, .optimizeCall prog₀.circuit none])) ∨
       (∃ c' ls, b.acvmCompile prog₀.circuit = some (c', ls) ∧
         ((resolveLabels ls = none ∧
            compile_package b fe pkg dw =
              (.panicked "Compiled circuit opcodes must resolve to some index",
               [.compileMainCall pkg.name, .optimizeCall prog₀.circuit (some (c', ls))])) ∨
          (∃ ids, resolveLabels ls = some ids ∧
            compile_package b fe pkg dw =
              (.ok { circuit := c', debug := prog₀.debug.update_acir ids },
               [.compileMainCall pkg.name,
                .optimizeCall prog₀.circuit (some (c', ls))])))))) := by
  rcases hlib : pkg.is_library with _ | _
  · rcases hfe : fe.compileMain pkg with errs | ⟨prog₀, w⟩
    · refine Or.inr (Or.inl ⟨rfl, errs, rfl, ?_⟩)
      simp [compile_package, hlib, report_errors, hfe]
    · refine Or.inr (Or.inr ⟨rfl, prog₀, w, rfl, ?_⟩)
      rcases hopt : b.acvmCompile prog₀.circuit with _ | ⟨c', ls⟩
      · refine Or.inl ⟨rfl, ?_⟩
        simp [compile_package, hlib, report_errors, hfe, optimize_circuit, hopt]
      · refine Or.inr ⟨c', ls, rfl, ?_⟩
        rcases hres : resolveLabels ls with _ | ids
        · refine Or.inl ⟨rfl, ?_⟩
          simp [compile_package, hlib, report_errors, hfe, optimize_circuit, hopt, hres]
        · refine Or.inr ⟨ids, rfl, ?_⟩
          simp [compile_package, hlib, report_errors, hfe, optimize_circuit, hopt, hres]
  · exact Or.inl ⟨rfl, by simp [compile_package, hlib]⟩

/-! Lifting a per-event property through each level of the pipeline. -/

theorem processFunctions_forall (b : Backend) (ik : Bool) (Q : Event → Prop)
    (hbase : ∀ crs f, ∀ e ∈ (processFunction b ik crs f).2, Q e) :
    ∀ (fs : List ContractFunction) (crs : CRS),
      ∀ e ∈ (processFunctions b ik crs fs).2, Q e := by
  intro fs
  induction fs with
  | nil => intro crs e he; simp [processFunctions] at he
  | cons f fs ih =>
    intro crs e he
    rcases hpf : processFunction b ik crs f with ⟨res, evs⟩
    cases res with
    | error err =>
      simp only [processFunctions, hpf] at he
      exact hbase crs f e (by rw [hpf]; exact he)
    | ok v =>
      obtain ⟨pf, crs'⟩ := v
      rcases hrec : processFunctions b ik crs' fs with ⟨res', evs'⟩
      have hsplit : e ∈ evs ++ evs' := by
        cases res' with
        | error err => simpa only [processFunctions, hpf, hrec] using he
        | ok v' => simpa only [processFunctions, hpf, hrec] using he
      rcases List.mem_append.mp hsplit with h | h
      · exact hbase crs f e (by rw [hpf]; exact h)
      · exact ih crs' e (by rw [hrec]; exact h)

theorem processContracts_forall (b : Backend) (ik : Bool) (Q : Event → Prop)
    (hbase : ∀ crs f, ∀ e ∈ (processFunction b ik crs f).2, Q e) :
    ∀ (cs : List CompiledContract) (crs : CRS),
      ∀ e ∈ (processContracts b ik crs cs).2, Q e := by
  intro cs
  induction cs with
  | nil => intro crs e he; simp [processContracts] at he
  | cons c cs ih =>
    intro crs e he
    rcases hfs : processFunctions b ik crs c.functions with ⟨res, evs⟩
    cases res with
    | error err =>
      simp only [processContracts, hfs] at he
      exact processFunctions_forall b ik Q hbase c.functions crs e (by rw [hfs]; exact he)
    | ok v =>
      obtain ⟨pfs, crs'⟩ := v
      rcases hrec : processContracts b ik crs' cs with ⟨res', evs'⟩
      have hsplit : e ∈ evs ++ evs' := by
        cases res' with
        | error err => simpa only [processContracts, hfs, hrec] using he
        | ok v' => simpa only [processContracts, hfs, hrec] using he
      rcases List.mem_append.mp hsplit with h | h
      · exact processFunctions_forall b ik Q hbase c.functions crs e (by rw [hfs]; exact h)
      · exact ih crs' e (by rw [hrec]; exact h)

theorem saveContracts_mem {pkgName : String} {pcs : List PreprocessedContract} {e : Event}
    (he : e ∈ saveContracts pkgName pcs) : ∃ fl c, e = Event.saveContract fl c := by
  induction pcs with
  | nil => simp [saveContracts] at he
  | cons c cs ih =>
    rcases List.mem_cons.mp he with h | h
    · exact ⟨_, _, h⟩
    · exact ih h

theorem compile_package_forall (b : Backend) (fe : Frontend) (pkg : Package) (dw : Bool)
    (Q : Event → Prop) (hcm : ∀ n, Q (.compileMainCall n))
    (hoc : ∀ c r, Q (.optimizeCall c r)) :
    ∀ e ∈ (compile_package b fe pkg dw).2, Q e := by
  rcases compile_package_shape b fe pkg dw with ⟨_, heq⟩ | ⟨_, errs, _, heq⟩ |
    ⟨_, prog₀, w, _, hrest⟩
  · simp [heq]
  · simp only [heq]
    intro e he
    simp only [List.mem_cons, List.not_mem_nil, or_false] at he
    subst he
    exact hcm pkg.name
  · rcases hrest with ⟨_, heq⟩ | ⟨c', ls, _, ⟨_, heq⟩ | ⟨ids, _, heq⟩⟩ <;>
    · simp only [heq]
      intro e he
      simp only [List.mem_cons, List.not_mem_nil, or_false] at he
      rcases he with rfl | rfl
      · exact hcm pkg.name
      · exact hoc _ _

theorem processPackage_forall (b : Backend) (fe : Frontend) (ik dw : Bool)
    (crs : CRS) (pkg : Package) (Q : Event → Prop)
    (hbase : ∀ crs' f, ∀ e ∈ (processFunction b ik crs' f).2, Q e)
    (hcm : ∀ n, Q (.compileMainCall n)) (hcc : ∀ n, Q (.compileContractsCall n))
    (hoc : ∀ c r, Q (.optimizeCall c r)) (hupd : ∀ i c o, Q (.crsUpdate i c o))
    (hppc : ∀ c cr, Q (.preprocessProgramCall c cr)) (hsp : ∀ n, Q (.saveProgram n))
    (hsc : ∀ fl c, Q (.saveContract fl c)) :
    ∀ e ∈ (processPackage b fe ik dw crs pkg).2, Q e := by
  intro e he
  by_cases hct : pkg.is_contract = true
  · rcases hfe : report_errors (fe.compileContracts pkg) dw with err | contracts
    · simp only [processPackage, hct, if_true, hfe] at he
      simp only [List.mem_cons, List.not_mem_nil, or_false] at he
      subst he
      exact hcc pkg.name
    · rcases hpc : processContracts b ik crs contracts with ⟨res, evs⟩
      cases res with
      | error err =>
        simp only [processPackage, hct, if_true, hfe, hpc] at he
        rcases List.mem_cons.mp he with rfl | h
        · exact hcc pkg.name
        · exact processContracts_forall b ik Q hbase contracts crs e (by rw [hpc]; exact h)
      | ok v =>
        obtain ⟨pcs, crs'⟩ := v
        simp only [processPackage, hct, if_true, hfe, hpc] at he
        rcases List.mem_cons.mp he with rfl | h
        · exact hcc pkg.name
        · rcases List.mem_append.mp h with h' | h'
          · exact processContracts_forall b ik Q hbase contracts crs e (by rw [hpc]; exact h')
          · obtain ⟨fl, c, rfl⟩ := saveContracts_mem h'
            exact hsc fl c
  · rw [Bool.not_eq_true] at hct
    have hcp := compile_package_forall b fe pkg dw Q hcm hoc
    rcases hc : compile_package b fe pkg dw with ⟨res, evs⟩
    cases res with
    | panicked m =>
      simp only [processPackage, hct, Bool.false_eq_true, if_false, hc] at he
      exact hcp e (by rw [hc]; exact he)
    | error err =>
      simp only [processPackage, hct, Bool.false_eq_true, if_false, hc] at he
      exact hcp e (by rw [hc]; exact he)
    | ok program =>
      rcases hu : update_common_reference_string b crs program.circuit with msg | crs'
      · simp only [processPackage, hct, Bool.false_eq_true, if_false, hc, hu] at he
        exact hcp e (by rw [hc]; exact he)
      · rcases hp : preprocess_program b ik crs' program with msg | pp
        · simp only [processPackage, hct, Bool.false_eq_true, if_false, hc, hu, hp] at he
          rcases List.mem_append.mp he with h | h
          · exact hcp e (by rw [hc]; exact h)
          · simp only [List.mem_cons, List.not_mem_nil, or_false] at h
            rcases h with rfl | rfl
            · exact hupd _ _ _
            · exact hppc _ _
        · simp only [processPackage, hct, Bool.false_eq_true, if_false, hc, hu, hp] at he
          rcases List.mem_append.mp he with h | h
          · exact hcp e (by rw [hc]; exact h)
          · simp only [List.mem_cons, List.not_mem_nil, or_false] at h
            rcases h with rfl | rfl | rfl
            · exact hupd _ _ _
            · exact hppc _ _
            · exact hsp _

theorem runLoop_forall (b : Backend) (fe : Frontend) (ik dw : Bool) (Q : Event → Prop)
    (hpkg : ∀ crs pkg, ∀ e ∈ (processPackage b fe ik dw crs pkg).2, Q e) :
    ∀ (ps : List Package) (crs : CRS), ∀ e ∈ (runLoop b fe ik dw crs ps).2, Q e := by
  intro ps
  induction ps with
  | nil => intro crs e he; simp [runLoop] at he
  | cons p ps ih =>
    intro crs e he
    rcases hpp : processPackage b fe ik dw crs p with ⟨res, evs⟩
    cases res with
    | panicked m =>
      simp only [runLoop, hpp] at he
      exact hpkg crs p e (by rw [hpp]; exact he)
    | error err =>
      simp only [runLoop, hpp] at he
      exact hpkg crs p e (by rw [hpp]; exact he)
    | ok crs' =>
      rcases hrl : runLoop b fe ik dw crs' ps with ⟨res', evs'⟩
      simp only [runLoop, hpp, hrl] at he
      rcases List.mem_append.mp he with h | h
      · exact hpkg crs p e (by rw [hpp]; exact h)
      · exact ih crs' e (by rw [hrl]; exact h)

/-! Event-class facts: the loop body never touches the CRS cache, and
contract-function processing never saves an artifact. -/

theorem processFunction_inner (b : Backend) (ik : Bool) (crs : CRS) (f : ContractFunction) :
    ∀ e ∈ (processFunction b ik crs f).2, e.isInner = true ∧ e.isSaveContract = false := by
  rcases processFunction_shape b ik crs f with ⟨e₀, _, heq⟩ | ⟨c', ls, msg, _, _, heq⟩ |
    ⟨c', ls, crs', res, _, _, _, heq⟩ <;>
    simp [heq, Event.isInner, Event.isSaveContract]

theorem processPackage_inner (b : Backend) (fe : Frontend) (ik dw : Bool) (crs : CRS)
    (pkg : Package) : ∀ e ∈ (processPackage b fe ik dw crs pkg).2, e.isInner = true :=
  processPackage_forall b fe ik dw crs pkg (fun e => e.isInner = true)
    (fun crs' f e he => ((processFunction_inner b ik crs' f) e he).1)
    (fun _ => rfl) (fun _ => rfl) (fun _ _ => rfl) (fun _ _ _ => rfl)
    (fun _ _ => rfl) (fun _ => rfl) (fun _ _ => rfl)

theorem runLoop_inner (b : Backend) (fe : Frontend) (ik dw : Bool) :
    ∀ (ps : List Package) (crs : CRS), ∀ e ∈ (runLoop b fe ik dw crs ps).2,
      e.isInner = true :=
  runLoop_forall b fe ik dw _ (fun crs pkg => processPackage_inner b fe ik dw crs pkg)

theorem processContracts_nosave (b : Backend) (ik : Bool) :
    ∀ (cs : List CompiledContract) (crs : CRS), ∀ e ∈ (processContracts b ik crs cs).2,
      e.isSaveContract = false :=
  processContracts_forall b ik _ (fun crs f e he => ((processFunction_inner b ik crs f) e he).2)

/-! CRS-threading facts: the update events of every level form a chain whose
first input is the CRS the level started from, and a successful level returns
exactly the output of its last update. -/

theorem updatesOf_cons_other (e : Event) (es : List Event) (h : e.isUpd = false) :
    updatesOf (e :: es) = updatesOf es := by
  cases e <;> first
  | rfl
  | simp [Event.isUpd] at h

theorem updatesOf_saveContracts (n : String) (pcs : List PreprocessedContract) :
    updatesOf (saveContracts n pcs) = [] := by
  induction pcs with
  | nil => rfl
  | cons c cs ih => simpa [saveContracts, updatesOf] using ih

theorem compile_package_noupd (b : Backend) (fe : Frontend) (pkg : Package) (dw : Bool) :
    updatesOf (compile_package b fe pkg dw).2 = [] := by
  rcases compile_package_shape b fe pkg dw with ⟨_, heq⟩ | ⟨_, errs, _, heq⟩ |
    ⟨_, prog₀, w, _, hrest⟩
  · simp [heq, updatesOf]
  · simp [heq, updatesOf]
  · rcases hrest with ⟨_, heq⟩ | ⟨c', ls, _, ⟨_, heq⟩ | ⟨ids, _, heq⟩⟩ <;> simp [heq, updatesOf]

theorem processFunction_crs (b : Backend) (ik : Bool) (crs : CRS) (f : ContractFunction) :
    chainedFrom crs (updatesOf (processFunction b ik crs f).2) ∧
    ∀ pf crs', (processFunction b ik crs f).1 = .ok (pf, crs') →
      crs' = lastCrs crs (updatesOf (processFunction b ik crs f).2) := by
  rcases processFunction_shape b ik crs f with ⟨e₀, _, heq⟩ | ⟨c', ls, msg, _, _, heq⟩ |
    ⟨c', ls, crs', res, _, _, hres, heq⟩
  · simp [heq, updatesOf, chainedFrom]
  · simp [heq, updatesOf, chainedFrom]
  · refine ⟨by simp [heq, updatesOf, chainedFrom], ?_⟩
    intro pf crs'' hok
    rw [heq] at hok
    rcases hres with ⟨msg, _, hr⟩ | ⟨pf', _, hr⟩
    · subst hr; simp at hok
    · subst hr
      have h2 : crs' = crs'' := (by simpa using hok : _ ∧ _).2
      simp [heq, updatesOf, lastCrs, ← h2]

theorem processFunctions_crs (b : Backend) (ik : Bool) :
    ∀ (fs : List ContractFunction) (crs : CRS),
      chainedFrom crs (updatesOf (processFunctions b ik crs fs).2) ∧
      ∀ pfs crs'', (processFunctions b ik crs fs).1 = .ok (pfs, crs'') →
        crs'' = lastCrs crs (updatesOf (processFunctions b ik crs fs).2) := by
  intro fs
  induction fs with
  | nil =>
    intro crs
    refine ⟨by simp [processFunctions, updatesOf, chainedFrom], ?_⟩
    intro pfs crs'' h
    simp only [processFunctions] at h
    have h2 : crs = crs'' := (by simpa using h : _ ∧ _).2
    simp [processFunctions, updatesOf, lastCrs, ← h2]
  | cons f fs ih =>
    intro crs
    rcases hpf : processFunction b ik crs f with ⟨res, evs⟩
    obtain ⟨hch, hlast⟩ := processFunction_crs b ik crs f
    rw [hpf] at hch hlast
    cases res with
    | error err =>
      refine ⟨by simp only [processFunctions, hpf]; exact hch, ?_⟩
      intro pfs crs'' h
      simp only [processFunctions, hpf] at h
      simp at h
    | ok v =>
      obtain ⟨pf, crs'⟩ := v
      have hcrs' : crs' = lastCrs crs (updatesOf evs) := hlast pf crs' rfl
      obtain ⟨hch₂, hlast₂⟩ := ih crs'
      rcases hrec : processFunctions b ik crs' fs with ⟨res', evs'⟩
      rw [hrec] at hch₂ hlast₂
      cases res' with
      | error err =>
        refine ⟨?_, ?_⟩
        · simp only [processFunctions, hpf, hrec, updatesOf_append]
          exact chainedFrom_append hch (hcrs' ▸ hch₂)
        · intro pfs crs'' h
          simp only [processFunctions, hpf, hrec] at h
          simp at h
      | ok v' =>
        obtain ⟨pfs', crs''⟩ := v'
        refine ⟨?_, ?_⟩
        · simp only [processFunctions, hpf, hrec, updatesOf_append]
          exact chainedFrom_append hch (hcrs' ▸ hch₂)
        · intro pfs₂ crs₂ h
          simp only [processFunctions, hpf, hrec] at h
          have h2 : crs'' = crs₂ := (by simpa using h : _ ∧ _).2
          simp only [processFunctions, hpf, hrec, updatesOf_append, lastCrs_append]
          rw [← h2, ← hcrs']
          exact hlast₂ pfs' crs'' rfl

theorem processContracts_crs (b : Backend) (ik : Bool) :
    ∀ (cs : List CompiledContract) (crs : CRS),
      chainedFrom crs (updatesOf (processContracts b ik crs cs).2) ∧
      ∀ pcs crs'', (processContracts b ik crs cs).1 = .ok (pcs, crs'') →
        crs'' = lastCrs crs (updatesOf (processContracts b ik crs cs).2) := by
  intro cs
  induction cs with
  | nil =>
    intro crs
    refine ⟨by simp [processContracts, updatesOf, chainedFrom], ?_⟩
    intro pcs crs'' h
    simp only [processContracts] at h
    have h2 : crs = crs'' := (by simpa using h : _ ∧ _).2
    simp [processContracts, updatesOf, lastCrs, ← h2]
  | cons c cs ih =>
    intro crs
    rcases hfs : processFunctions b ik crs c.functions with ⟨res, evs⟩
    obtain ⟨hch, hlast⟩ := processFunctions_crs b ik c.functions crs
    rw [hfs] at hch hlast
    cases res with
    | error err =>
      refine ⟨by simp only [processContracts, hfs]; exact hch, ?_⟩
      intro pcs crs'' h
      simp only [processContracts, hfs] at h
      simp at h
    | ok v =>
      obtain ⟨pfs, crs'⟩ := v
      have hcrs' : crs' = lastCrs crs (updatesOf evs) := hlast pfs crs' rfl
      obtain ⟨hch₂, hlast₂⟩ := ih crs'
      rcases hrec : processContracts b ik crs' cs with ⟨res', evs'⟩
      rw [hrec] at hch₂ hlast₂
      cases res' with
      | error err =>
        refine ⟨?_, ?_⟩
        · simp only [processContracts, hfs, hrec, updatesOf_append]
          exact chainedFrom_append hch (hcrs' ▸ hch₂)
        · intro pcs crs'' h
          simp only [processContracts, hfs, hrec] at h
          simp at h
      | ok v' =>
        obtain ⟨pcs', crs''⟩ := v'
        refine ⟨?_, ?_⟩
        · simp only [processContracts, hfs, hrec, updatesOf_append]
          exact chainedFrom_append hch (hcrs' ▸ hch₂)
        · intro pcs₂ crs₂ h
          simp only [processContracts, hfs, hrec] at h
          have h2 : crs'' = crs₂ := (by simpa using h : _ ∧ _).2
          simp only [processContracts, hfs, hrec, updatesOf_append, lastCrs_append]
          rw [← h2, ← hcrs']
          exact hlast₂ pcs' crs'' rfl

theorem processPackage_crs (b : Backend) (fe : Frontend) (ik dw : Bool) (crs : CRS)
    (pkg : Package) :
    chainedFrom crs (updatesOf (processPackage b fe ik dw crs pkg).2) ∧
    ∀ crs', (processPackage b fe ik dw crs pkg).1 = .ok crs' →
      crs' = lastCrs crs (updatesOf (processPackage b fe ik dw crs pkg).2) := by
  by_cases hct : pkg.is_contract = true
  · rcases hfe : report_errors (fe.compileContracts pkg) dw with err | contracts
    · refine ⟨by simp [processPackage, hct, hfe, updatesOf, chainedFrom], ?_⟩
      intro crs' h
      simp [processPackage, hct, hfe] at h
    · obtain ⟨hch, hlast⟩ := processContracts_crs b ik contracts crs
      rcases hpc : processContracts b ik crs contracts with ⟨res, evs⟩
      rw [hpc] at hch hlast
      cases res with
      | error err =>
        refine ⟨?_, ?_⟩
        · simp only [processPackage, hct, if_true, hfe, hpc]
          simpa [updatesOf] using hch
        · intro crs' h
          simp only [processPackage, hct, if_true, hfe, hpc] at h
          simp at h
      | ok v =>
        obtain ⟨pcs, crs''⟩ := v
        refine ⟨?_, ?_⟩
        · simp only [processPackage, hct, if_true, hfe, hpc]
          rw [updatesOf_append, updatesOf_cons_other (Event.compileContractsCall pkg.name) _ rfl,
            updatesOf_saveContracts, List.append_nil]
          exact hch
        · intro crs₂ h
          simp only [processPackage, hct, if_true, hfe, hpc] at h
          have h2 : crs'' = crs₂ := by simpa using h
          simp only [processPackage, hct, if_true, hfe, hpc]
          rw [← h2, updatesOf_append,
            updatesOf_cons_other (Event.compileContractsCall pkg.name) _ rfl,
            updatesOf_saveContracts, List.append_nil]
          exact hlast pcs crs'' rfl
  · rw [Bool.not_eq_true] at hct
    rcases hcp : compile_package b fe pkg dw with ⟨res, evs⟩
    have hnu : updatesOf evs = [] := by
      have h := compile_package_noupd b fe pkg dw
      rwa [hcp] at h
    cases res with
    | panicked m =>
      refine ⟨?_, ?_⟩
      · simp only [processPackage, hct, Bool.false_eq_true, if_false, hcp, hnu]
        trivial
      · intro crs' h
        simp only [processPackage, hct, Bool.false_eq_true, if_false, hcp] at h
        simp at h
    | error err =>
      refine ⟨?_, ?_⟩
      · simp only [processPackage, hct, Bool.false_eq_true, if_false, hcp, hnu]
        trivial
      · intro crs' h
        simp only [processPackage, hct, Bool.false_eq_true, if_false, hcp] at h
        simp at h
    | ok program =>
      rcases hu : update_common_reference_string b crs program.circuit with msg | crs'
      · refine ⟨?_, ?_⟩
        · simp only [processPackage, hct, Bool.false_eq_true, if_false, hcp, hu, hnu]
          trivial
        · intro crs₂ h
          simp only [processPackage, hct, Bool.false_eq_true, if_false, hcp, hu] at h
          simp at h
      · rcases hp : preprocess_program b ik crs' program with msg | pp
        · refine ⟨?_, ?_⟩
          · simp only [processPackage, hct, Bool.false_eq_true, if_false, hcp, hu, hp,
              updatesOf_append, hnu]
            simp [updatesOf, chainedFrom]
          · intro crs₂ h
            simp only [processPackage, hct, Bool.false_eq_true, if_false, hcp, hu, hp] at h
            simp at h
        · refine ⟨?_, ?_⟩
          · simp only [processPackage, hct, Bool.false_eq_true, if_false, hcp, hu, hp,
              updatesOf_append, hnu]
            simp [updatesOf, chainedFrom]
          · intro crs₂ h
            simp only [processPackage, hct, Bool.false_eq_true, if_false, hcp, hu, hp] at h
            have h2 : crs' = crs₂ := by simpa using h
            simp only [processPackage, hct, Bool.false_eq_true, if_false, hcp, hu, hp,
              updatesOf_append, hnu]
            rw [← h2]
            simp [updatesOf, lastCrs]

theorem runLoop_crs (b : Backend) (fe : Frontend) (ik dw : Bool) :
    ∀ (ps : List Package) (crs : CRS),
      chainedFrom crs (updatesOf (runLoop b fe ik dw crs ps).2) ∧
      ∀ crs'', (runLoop b fe ik dw crs ps).1 = .ok crs'' →
        crs'' = lastCrs crs (updatesOf (runLoop b fe ik dw crs ps).2) := by
  intro ps
  induction ps with
  | nil =>
    intro crs
    refine ⟨by simp [runLoop, updatesOf, chainedFrom], ?_⟩
    intro crs'' h
    simp only [runLoop] at h
    have h2 : crs = crs'' := by simpa using h
    simp [runLoop, updatesOf, lastCrs, ← h2]
  | cons p ps ih =>
    intro crs
    rcases hpp : processPackage b fe ik dw crs p with ⟨res, evs⟩
    obtain ⟨hch, hlast⟩ := processPackage_crs b fe ik dw crs p
    rw [hpp] at hch hlast
    cases res with
    | panicked m =>
      refine ⟨by simp only [runLoop, hpp]; exact hch, ?_⟩
      intro crs'' h
      simp only [runLoop, hpp] at h
      simp at h
    | error err =>
      refine ⟨by simp only [runLoop, hpp]; exact hch, ?_⟩
      intro crs'' h
      simp only [runLoop, hpp] at h
      simp at h
    | ok crs' =>
      have hcrs' : crs' = lastCrs crs (updatesOf evs) := hlast crs' rfl
      obtain ⟨hch₂, hlast₂⟩ := ih crs'
      rcases hrec : runLoop b fe ik dw crs' ps with ⟨res', evs'⟩
      rw [hrec] at hch₂ hlast₂
      refine ⟨?_, ?_⟩
      · simp only [runLoop, hpp, hrec, updatesOf_append]
        exact chainedFrom_append hch (hcrs' ▸ hch₂)
      · intro crs₂ h
        simp only [runLoop, hpp, hrec] at h
        simp only [runLoop, hpp, hrec, updatesOf_append, lastCrs_append]
        rw [← hcrs']
        exact hlast₂ crs₂ h

theorem isRead_eq_false_of_inner {e : Event} (h : e.isInner = true) : e.isRead = false := by
  cases e <;> first
  | rfl
  | simp [Event.isInner] at h

theorem isWrite_eq_false_of_inner {e : Event} (h : e.isInner = true) : e.isWrite = false := by
  cases e <;> first
  | rfl
  | simp [Event.isInner] at h

theorem countP_eq_zero_of_inner {es : List Event} (p : Event → Bool)
    (hp : ∀ e, e.isInner = true → p e = false) (h : ∀ e ∈ es, e.isInner = true) :
    es.countP p = 0 :=
  List.countP_eq_zero.mpr (fun e he => by simp [hp e (h e he)])

/-- Claim C5: within one build, the CRS is read from the cache exactly once,
as the very first action; every CRS update's input is the output of the
previous update (the first update's input is the cached value), across
packages and contract functions alike; and on success the final CRS — the
output of the last update — is written back exactly once, as the very last
action.  On failure the cache is never written. -/
theorem crs_lifecycle (b : Backend) (fe : Frontend) (ik dw : Bool) (cached : CRS)
    (ws : List Package) :
    (run b fe ik dw cached ws).2.head? = some (.readCrsCache cached) ∧
    (run b fe ik dw cached ws).2.countP Event.isRead = 1 ∧
    chainedFrom cached (updatesOf (run b fe ik dw cached ws).2) ∧
    ((run b fe ik dw cached ws).1 = .ok () →
      (run b fe ik dw cached ws).2.countP Event.isWrite = 1 ∧
      (run b fe ik dw cached ws).2.getLast? =
        some (.writeCrsCache (lastCrs cached (updatesOf (run b fe ik dw cached ws).2)))) ∧
    ((run b fe ik dw cached ws).1 ≠ .ok () →
      (run b fe ik dw cached ws).2.countP Event.isWrite = 0) := by
  rcases hrl : runLoop b fe ik dw cached ws with ⟨res, evs⟩
  have hinner : ∀ e ∈ evs, e.isInner = true := by
    have h := runLoop_inner b fe ik dw ws cached
    rw [hrl] at h
    exact h
  have hr0 : evs.countP Event.isRead = 0 :=
    countP_eq_zero_of_inner _ (fun e he => isRead_eq_false_of_inner he) hinner
  have hw0 : evs.countP Event.isWrite = 0 :=
    countP_eq_zero_of_inner _ (fun e he => isWrite_eq_false_of_inner he) hinner
  obtain ⟨hch, hlast⟩ := runLoop_crs b fe ik dw ws cached
  rw [hrl] at hch hlast
  cases res with
  | panicked m =>
    simp only [run, hrl]
    refine ⟨rfl, ?_, ?_, ?_, ?_⟩
    · simp [List.countP_cons, hr0, Event.isRead]
    · rw [updatesOf_cons_other (Event.readCrsCache cached) _ rfl]
      exact hch
    · intro h
      simp at h
    · intro _
      simp [List.countP_cons, hw0, Event.isWrite]
  | error e =>
    simp only [run, hrl]
    refine ⟨rfl, ?_, ?_, ?_, ?_⟩
    · simp [List.countP_cons, hr0, Event.isRead]
    · rw [updatesOf_cons_other (Event.readCrsCache cached) _ rfl]
      exact hch
    · intro h
      simp at h
    · intro _
      simp [List.countP_cons, hw0, Event.isWrite]
  | ok crs' =>
    simp only [run, hrl]
    have hupd : updatesOf ((Event.readCrsCache cached :: evs) ++ [Event.writeCrsCache crs']) =
        updatesOf evs := by
      rw [updatesOf_append, updatesOf_cons_other (Event.readCrsCache cached) _ rfl]
      simp [updatesOf]
    refine ⟨rfl, ?_, ?_, ?_, ?_⟩
    · rw [List.countP_append, List.countP_cons, hr0]
      simp [Event.isRead, List.countP_cons]
    · rw [hupd]
      exact hch
    · intro _
      refine ⟨?_, ?_⟩
      · rw [List.countP_append, List.countP_cons, hw0]
        simp [Event.isWrite, List.countP_cons]
      · rw [List.getLast?_append_of_ne_nil _ (by simp), hupd]
        simp [hlast crs' rfl]
    · intro h
      simp at h

/-- Claim C5 witness: on a concrete contract build the cache is read once and
written once, the last event being the write of the final folded CRS. -/
theorem crs_lifecycle_witness :
    (run backendA frontendA false false [] [pkgC]).2.countP Event.isRead = 1 ∧
    (run backendA frontendA false false [] [pkgC]).2.countP Event.isWrite = 1 ∧
    (run backendA frontendA false false [] [pkgC]).2.getLast? =
      some (.writeCrsCache (lastCrs [] (updatesOf (run backendA frontendA false false [] [pkgC]).2))) := by
  obtain ⟨h1, h2, h3, h4, h5⟩ := crs_lifecycle backendA frontendA false false [] [pkgC]
  obtain ⟨h6, h7⟩ := h4 (by decide)
  exact ⟨h2, h6, h7⟩

/-- Claim C10: if any package fails, `run` returns that failure with the CRS
cache never written — the cache write event occurs in a trace only when the
whole build succeeded. -/
theorem cache_untouched_on_failure (b : Backend) (fe : Frontend) (ik dw : Bool)
    (cached : CRS) (ws : List Package) :
    (∀ e, (run b fe ik dw cached ws).1 = .error e →
      ∀ c, Event.writeCrsCache c ∉ (run b fe ik dw cached ws).2) ∧
    (∀ m, (run b fe ik dw cached ws).1 = .panicked m →
      ∀ c, Event.writeCrsCache c ∉ (run b fe ik dw cached ws).2) ∧
    (∀ c, Event.writeCrsCache c ∈ (run b fe ik dw cached ws).2 →
      (run b fe ik dw cached ws).1 = .ok ()) := by
  rcases hrl : runLoop b fe ik dw cached ws with ⟨res, evs⟩
  have hinner : ∀ e ∈ evs, e.isInner = true := by
    have h := runLoop_inner b fe ik dw ws cached
    rw [hrl] at h
    exact h
  have hnw : ∀ c, Event.writeCrsCache c ∉ evs := by
    intro c hc
    have h := isWrite_eq_false_of_inner (hinner _ hc)
    simp [Event.isWrite] at h
  cases res with
  | panicked m =>
    simp only [run, hrl]
    refine ⟨fun e h => by simp at h, fun m' _ c hc => ?_, fun c hc => ?_⟩
    · rcases List.mem_cons.mp hc with h | h
      · simp at h
      · exact hnw c h
    · rcases List.mem_cons.mp hc with h | h
      · simp at h
      · exact absurd h (hnw c)
  | error e =>
    simp only [run, hrl]
    refine ⟨fun e' _ c hc => ?_, fun m h => by simp at h, fun c hc => ?_⟩
    · rcases List.mem_cons.mp hc with h | h
      · simp at h
      · exact hnw c h
    · rcases List.mem_cons.mp hc with h | h
      · simp at h
      · exact absurd h (hnw c)
  | ok crs' =>
    simp only [run, hrl]
    exact ⟨fun e h => by simp at h, fun m h => by simp at h, fun c hc => by simp⟩

/-- Claim C10 witness: a failing build (library-only workspace) leaves no
cache-write event in its trace. -/
theorem cache_untouched_on_failure_witness :
    Event.writeCrsCache [1] ∉ (run backendA frontendA false false [] [pkgL]).2 := by
  have h := (cache_untouched_on_failure backendA frontendA false false [] [pkgL]).1
  exact h (.CompileError (.LibraryCrate "l")) (by decide) [1]

/-! Chain facts for the ordering of optimizer calls and CRS updates. -/

theorem updAfterOpt_of_not_upd {e e' : Event} (h : e'.isUpd = false) : updAfterOpt e e' := by
  intro i c o hh
  subst hh
  simp [Event.isUpd] at h

theorem noLeadingUpd_cons {e : Event} {es : List Event} (h : e.isUpd = false) :
    noLeadingUpd (e :: es) := by
  intro i c o hh
  simp only [List.head?_cons, Option.some.injEq] at hh
  subst hh
  simp [Event.isUpd] at h

theorem updAfterOpt_head_of_noLeading {es : List Event} (hn : noLeadingUpd es) (x : Event) :
    ∀ y ∈ es.head?, updAfterOpt x y := by
  intro y hy i c o hh
  subst hh
  rw [Option.mem_def] at hy
  exact absurd hy (hn i c o)

theorem noLeadingUpd_append {l₁ l₂ : List Event} (h₁ : noLeadingUpd l₁)
    (h₂ : noLeadingUpd l₂) : noLeadingUpd (l₁ ++ l₂) := by
  cases l₁ with
  | nil => simpa using h₂
  | cons e es =>
    intro i c o hh
    exact h₁ i c o (by simpa using hh)

theorem chain'_append_of_noLeadingUpd {l₁ l₂ : List Event}
    (h₁ : List.Chain' updAfterOpt l₁) (h₂ : List.Chain' updAfterOpt l₂)
    (hl : noLeadingUpd l₂) : List.Chain' updAfterOpt (l₁ ++ l₂) :=
  List.Chain'.append h₁ h₂ (fun x _ => updAfterOpt_head_of_noLeading hl x)

theorem chainOK_of_no_upd {l : List Event} (h : ∀ e ∈ l, e.isUpd = false) :
    List.Chain' updAfterOpt l ∧ noLeadingUpd l := by
  induction l with
  | nil => exact ⟨List.chain'_nil, by intro i c o hh; simp at hh⟩
  | cons e es ih =>
    obtain ⟨hc, hn⟩ := ih (fun x hx => h x (List.mem_cons_of_mem e hx))
    exact ⟨List.chain'_cons'.mpr ⟨updAfterOpt_head_of_noLeading hn e, hc⟩,
      noLeadingUpd_cons (h e (List.mem_cons_self e es))⟩

theorem processFunction_chain (b : Backend) (ik : Bool) (crs : CRS) (f : ContractFunction) :
    List.Chain' updAfterOpt (processFunction b ik crs f).2 ∧
    noLeadingUpd (processFunction b ik crs f).2 := by
  rcases processFunction_shape b ik crs f with ⟨e₀, _, heq⟩ | ⟨c', ls, msg, _, _, heq⟩ |
    ⟨c', ls, crs', res, _, _, _, heq⟩ <;> simp only [heq]
  · exact ⟨List.chain'_cons.mpr ⟨updAfterOpt_of_not_upd rfl, List.chain'_singleton _⟩,
      noLeadingUpd_cons rfl⟩
  · exact ⟨List.chain'_cons.mpr ⟨updAfterOpt_of_not_upd rfl, List.chain'_singleton _⟩,
      noLeadingUpd_cons rfl⟩
  · refine ⟨?_, noLeadingUpd_cons rfl⟩
    rw [List.chain'_cons, List.chain'_cons, List.chain'_cons]
    refine ⟨updAfterOpt_of_not_upd rfl, ?_, updAfterOpt_of_not_upd rfl,
      List.chain'_singleton _⟩
    intro i c o hh
    injection hh with h1 h2 h3
    subst h2
    exact ⟨f.bytecode, ls, rfl⟩

theorem processFunctions_chain (b : Backend) (ik : Bool) :
    ∀ (fs : List ContractFunction) (crs : CRS),
      List.Chain' updAfterOpt (processFunctions b ik crs fs).2 ∧
      noLeadingUpd (processFunctions b ik crs fs).2 := by
  intro fs
  induction fs with
  | nil =>
    intro crs
    exact ⟨List.chain'_nil, by intro i c o hh; simp [processFunctions] at hh⟩
  | cons f fs ih =>
    intro crs
    rcases hpf : processFunction b ik crs f with ⟨res, evs⟩
    obtain ⟨hc1, hn1⟩ := processFunction_chain b ik crs f
    rw [hpf] at hc1 hn1
    cases res with
    | error err =>
      refine ⟨?_, ?_⟩ <;> simp only [processFunctions, hpf]
      · exact hc1
      · exact hn1
    | ok v =>
      obtain ⟨pf, crs'⟩ := v
      obtain ⟨hc2, hn2⟩ := ih crs'
      rcases hrec : processFunctions b ik crs' fs with ⟨res', evs'⟩
      rw [hrec] at hc2 hn2
      cases res' with
      | error err =>
        refine ⟨?_, ?_⟩ <;> simp only [processFunctions, hpf, hrec]
        · exact chain'_append_of_noLeadingUpd hc1 hc2 hn2
        · exact noLeadingUpd_append hn1 hn2
      | ok v' =>
        refine ⟨?_, ?_⟩ <;> simp only [processFunctions, hpf, hrec]
        · exact chain'_append_of_noLeadingUpd hc1 hc2 hn2
        · exact noLeadingUpd_append hn1 hn2

theorem processContracts_chain (b : Backend) (ik : Bool) :
    ∀ (cs : List CompiledContract) (crs : CRS),
      List.Chain' updAfterOpt (processContracts b ik crs cs).2 ∧
      noLeadingUpd (processContracts b ik crs cs).2 := by
  intro cs
  induction cs with
  | nil =>
    intro crs
    exact ⟨List.chain'_nil, by intro i c o hh; simp [processContracts] at hh⟩
  | cons c cs ih =>
    intro crs
    rcases hfs : processFunctions b ik crs c.functions with ⟨res, evs⟩
    obtain ⟨hc1, hn1⟩ := processFunctions_chain b ik c.functions crs
    rw [hfs] at hc1 hn1
    cases res with
    | error err =>
      refine ⟨?_, ?_⟩ <;> simp only [processContracts, hfs]
      · exact hc1
      · exact hn1
    | ok v =>
      obtain ⟨pfs, crs'⟩ := v
      obtain ⟨hc2, hn2⟩ := ih crs'
      rcases hrec : processContracts b ik crs' cs with ⟨res', evs'⟩
      rw [hrec] at hc2 hn2
      cases res' with
      | error err =>
        refine ⟨?_, ?_⟩ <;> simp only [processContracts, hfs, hrec]
        · exact chain'_append_of_noLeadingUpd hc1 hc2 hn2
        · exact noLeadingUpd_append hn1 hn2
      | ok v' =>
        refine ⟨?_, ?_⟩ <;> simp only [processContracts, hfs, hrec]
        · exact chain'_append_of_noLeadingUpd hc1 hc2 hn2
        · exact noLeadingUpd_append hn1 hn2

theorem saveContracts_no_upd (n : String) (pcs : List PreprocessedContract) :
    ∀ e ∈ saveContracts n pcs, e.isUpd = false := by
  intro e he
  obtain ⟨fl, c, rfl⟩ := saveContracts_mem he
  rfl

theorem compile_package_ok_last {b : Backend} {fe : Frontend} {pkg : Package} {dw : Bool}
    {program : CompiledProgram} {evs : List Event}
    (h : compile_package b fe pkg dw = (.ok program, evs)) :
    ∃ c₀ ls, evs.getLast? = some (.optimizeCall c₀ (some (program.circuit, ls))) := by
  rcases compile_package_shape b fe pkg dw with ⟨_, heq⟩ | ⟨_, errs, _, heq⟩ |
    ⟨_, prog₀, w, _, hrest⟩
  · rw [heq] at h
    simp at h
  · rw [heq] at h
    simp at h
  · rcases hrest with ⟨_, heq⟩ | ⟨c', ls, _, ⟨_, heq⟩ | ⟨ids, _, heq⟩⟩
    · rw [heq] at h
      simp at h
    · rw [heq] at h
      simp at h
    · rw [heq] at h
      simp only [Prod.mk.injEq, PanicOr.ok.injEq] at h
      obtain ⟨h1, h2⟩ := h
      subst h1 h2
      exact ⟨prog₀.circuit, ls, rfl⟩

theorem processPackage_chain (b : Backend) (fe : Frontend) (ik dw : Bool) (crs : CRS)
    (pkg : Package) :
    List.Chain' updAfterOpt (processPackage b fe ik dw crs pkg).2 ∧
    noLeadingUpd (processPackage b fe ik dw crs pkg).2 := by
  by_cases hct : pkg.is_contract = true
  · rcases hfe : report_errors (fe.compileContracts pkg) dw with err | contracts
    · refine ⟨?_, ?_⟩ <;> simp only [processPackage, hct, if_true, hfe]
      · exact List.chain'_singleton _
      · exact noLeadingUpd_cons rfl
    · obtain ⟨hc1, hn1⟩ := processContracts_chain b ik contracts crs
      rcases hpc : processContracts b ik crs contracts with ⟨res, evs⟩
      rw [hpc] at hc1 hn1
      cases res with
      | error err =>
        refine ⟨?_, ?_⟩ <;> simp only [processPackage, hct, if_true, hfe, hpc]
        · exact List.chain'_cons'.mpr ⟨updAfterOpt_head_of_noLeading hn1 _, hc1⟩
        · exact noLeadingUpd_cons rfl
      | ok v =>
        obtain ⟨pcs, crs'⟩ := v
        obtain ⟨hcs, hns⟩ := chainOK_of_no_upd (saveContracts_no_upd pkg.name pcs)
        refine ⟨?_, ?_⟩ <;> simp only [processPackage, hct, if_true, hfe, hpc]
        · exact List.chain'_cons'.mpr
            ⟨updAfterOpt_head_of_noLeading (noLeadingUpd_append hn1 hns) _,
             chain'_append_of_noLeadingUpd hc1 hcs hns⟩
        · exact noLeadingUpd_cons rfl
  · rw [Bool.not_eq_true] at hct
    rcases hcp : compile_package b fe pkg dw with ⟨res, evs⟩
    have hforall : ∀ e ∈ evs, e.isUpd = false := by
      have h := compile_package_forall b fe pkg dw (fun e => e.isUpd = false)
        (fun _ => rfl) (fun _ _ => rfl)
      rw [hcp] at h
      exact h
    obtain ⟨hc1, hn1⟩ := chainOK_of_no_upd hforall
    cases res with
    | panicked m =>
      refine ⟨?_, ?_⟩ <;> simp only [processPackage, hct, Bool.false_eq_true, if_false, hcp]
      · exact hc1
      · exact hn1
    | error err =>
      refine ⟨?_, ?_⟩ <;> simp only [processPackage, hct, Bool.false_eq_true, if_false, hcp]
      · exact hc1
      · exact hn1
    | ok program =>
      obtain ⟨c₀, ls, hlastev⟩ := compile_package_ok_last hcp
      rcases hu : update_common_reference_string b crs program.circuit with msg | crs'
      · refine ⟨?_, ?_⟩ <;>
          simp only [processPackage, hct, Bool.false_eq_true, if_false, hcp, hu]
        · exact hc1
        · exact hn1
      · have hbnd : ∀ (tail : List Event) (x : Event), x ∈ evs.getLast? →
            ∀ y ∈ (Event.crsUpdate crs program.circuit crs' :: tail).head?, updAfterOpt x y := by
          intro tail x hx y hy
          rw [Option.mem_def] at hx hy
          rw [hlastev] at hx
          injection hx with hx
          simp only [List.head?_cons, Option.some.injEq] at hy
          subst hx hy
          intro i c o hh
          injection hh with h1 h2 h3
          subst h2
          exact ⟨c₀, ls, rfl⟩
        rcases hp : preprocess_program b ik crs' program with msg | pp
        · refine ⟨?_, ?_⟩ <;>
            simp only [processPackage, hct, Bool.false_eq_true, if_false, hcp, hu, hp]
          · refine List.Chain'.append hc1 ?_ (hbnd _)
            exact List.chain'_cons.mpr ⟨updAfterOpt_of_not_upd rfl, List.chain'_singleton _⟩
          · cases evs with
            | nil => simp at hlastev
            | cons e es => exact fun i c o hh => hn1 i c o (by simpa using hh)
        · refine ⟨?_, ?_⟩ <;>
            simp only [processPackage, hct, Bool.false_eq_true, if_false, hcp, hu, hp]
          · refine List.Chain'.append hc1 ?_ (hbnd _)
            rw [List.chain'_cons, List.chain'_cons]
            exact ⟨updAfterOpt_of_not_upd rfl, updAfterOpt_of_not_upd rfl,
              List.chain'_singleton _⟩
          · cases evs with
            | nil => simp at hlastev
            | cons e es => exact fun i c o hh => hn1 i c o (by simpa using hh)

theorem runLoop_chain (b : Backend) (fe : Frontend) (ik dw : Bool) :
    ∀ (ps : List Package) (crs : CRS),
      List.Chain' updAfterOpt (runLoop b fe ik dw crs ps).2 ∧
      noLeadingUpd (runLoop b fe ik dw crs ps).2 := by
  intro ps
  induction ps with
  | nil =>
    intro crs
    exact ⟨List.chain'_nil, by intro i c o hh; simp [runLoop] at hh⟩
  | cons p ps ih =>
    intro crs
    rcases hpp : processPackage b fe ik dw crs p with ⟨res, evs⟩
    obtain ⟨hc1, hn1⟩ := processPackage_chain b fe ik dw crs p
    rw [hpp] at hc1 hn1
    cases res with
    | panicked m =>
      refine ⟨?_, ?_⟩ <;> simp only [runLoop, hpp]
      · exact hc1
      · exact hn1
    | error err =>
      refine ⟨?_, ?_⟩ <;> simp only [runLoop, hpp]
      · exact hc1
      · exact hn1
    | ok crs' =>
      obtain ⟨hc2, hn2⟩ := ih crs'
      rcases hrec : runLoop b fe ik dw crs' ps with ⟨res', evs'⟩
      rw [hrec] at hc2 hn2
      refine ⟨?_, ?_⟩ <;> simp only [runLoop, hpp, hrec]
      · exact chain'_append_of_noLeadingUpd hc1 hc2 hn2
      · exact noLeadingUpd_append hn1 hn2

/-- Claim C4: on every path of a build — binary packages and contract
functions alike — a CRS-update event is always immediately preceded by a
successful optimizer call whose output circuit is exactly the circuit handed
to the update, so `update_common_reference_string` is never called with a
pre-optimization circuit; and a trace never begins with a CRS update. -/
theorem crs_update_takes_optimized_circuit (b : Backend) (fe : Frontend) (ik dw : Bool)
    (cached : CRS) (ws : List Package) :
    List.Chain' updAfterOpt (run b fe ik dw cached ws).2 ∧
    noLeadingUpd (run b fe ik dw cached ws).2 := by
  rcases hrl : runLoop b fe ik dw cached ws with ⟨res, evs⟩
  obtain ⟨hc1, hn1⟩ := runLoop_chain b fe ik dw ws cached
  rw [hrl] at hc1 hn1
  cases res with
  | panicked m =>
    simp only [run, hrl]
    exact ⟨List.chain'_cons'.mpr ⟨updAfterOpt_head_of_noLeading hn1 _, hc1⟩,
      noLeadingUpd_cons rfl⟩
  | error e =>
    simp only [run, hrl]
    exact ⟨List.chain'_cons'.mpr ⟨updAfterOpt_head_of_noLeading hn1 _, hc1⟩,
      noLeadingUpd_cons rfl⟩
  | ok crs' =>
    simp only [run, hrl]
    have hw : List.Chain' updAfterOpt [Event.writeCrsCache crs'] ∧
        noLeadingUpd [Event.writeCrsCache crs'] :=
      chainOK_of_no_upd (by intro e he; simp at he; subst he; rfl)
    refine ⟨?_, ?_⟩
    · refine chain'_append_of_noLeadingUpd ?_ hw.1 hw.2
      exact List.chain'_cons'.mpr ⟨updAfterOpt_head_of_noLeading hn1 _, hc1⟩
    · exact noLeadingUpd_append (noLeadingUpd_cons rfl) hw.2

/-- Claim C4 witness: the ordering property evaluated on a concrete contract
build whose trace contains a CRS update. -/
theorem crs_update_takes_optimized_circuit_witness :
    List.Chain' updAfterOpt (run backendA frontendA false false [] [pkgC]).2 ∧
    noLeadingUpd (run backendA frontendA false false [] [pkgC]).2 :=
  crs_update_takes_optimized_circuit backendA frontendA false false [] [pkgC]

/-! Facts about failed optimizer calls: a failure ends the build on the spot,
so a failed-optimize event is always the last event of its trace. -/

theorem failopt_append {l₁ l₂ : List Event}
    (h₁ : ∀ c, Event.optimizeCall c none ∉ l₁)
    (h₂ : ∀ c, Event.optimizeCall c none ∈ l₂ →
      l₂.getLast? = some (.optimizeCall c none)) :
    ∀ c, Event.optimizeCall c none ∈ l₁ ++ l₂ →
      (l₁ ++ l₂).getLast? = some (.optimizeCall c none) := by
  intro c hc
  rcases List.mem_append.mp hc with h | h
  · exact absurd h (h₁ c)
  · rw [List.getLast?_append_of_ne_nil _ (List.ne_nil_of_mem h)]
    exact h₂ c h

theorem failopt_cons {e₀ : Event} {l : List Event} (he : e₀.isFailedOpt = false)
    (h : ∀ c, Event.optimizeCall c none ∈ l → l.getLast? = some (.optimizeCall c none)) :
    ∀ c, Event.optimizeCall c none ∈ e₀ :: l →
      (e₀ :: l).getLast? = some (.optimizeCall c none) := by
  intro c hc
  rcases List.mem_cons.mp hc with hc | hc
  · subst hc
    simp [Event.isFailedOpt] at he
  · rw [show e₀ :: l = [e₀] ++ l from rfl,
      List.getLast?_append_of_ne_nil _ (List.ne_nil_of_mem hc)]
    exact h c hc

theorem processFunction_failopt (b : Backend) (ik : Bool) (crs : CRS) (f : ContractFunction) :
    (∀ v, (processFunction b ik crs f).1 = .ok v →
      ∀ c, Event.optimizeCall c none ∉ (processFunction b ik crs f).2) ∧
    (∀ c, Event.optimizeCall c none ∈ (processFunction b ik crs f).2 →
      (processFunction b ik crs f).2.getLast? = some (.optimizeCall c none)) := by
  rcases processFunction_shape b ik crs f with ⟨e₀, _, heq⟩ | ⟨c', ls, msg, _, _, heq⟩ |
    ⟨c', ls, crs', res, _, _, _, heq⟩ <;> simp only [heq]
  · refine ⟨by intro v hv; simp at hv, ?_⟩
    intro c hc
    simp only [List.mem_cons, List.not_mem_nil, or_false] at hc
    rcases hc with hc | hc
    · simp at hc
    · injection hc with h1 h2
      subst h1
      rfl
  · refine ⟨by intro v hv; simp at hv, ?_⟩
    intro c hc
    simp at hc
  · refine ⟨?_, ?_⟩
    · intro v _ c hc
      simp at hc
    · intro c hc
      simp at hc

theorem processFunctions_failopt (b : Backend) (ik : Bool) :
    ∀ (fs : List ContractFunction) (crs : CRS),
      (∀ v, (processFunctions b ik crs fs).1 = .ok v →
        ∀ c, Event.optimizeCall c none ∉ (processFunctions b ik crs fs).2) ∧
      (∀ c, Event.optimizeCall c none ∈ (processFunctions b ik crs fs).2 →
        (processFunctions b ik crs fs).2.getLast? = some (.optimizeCall c none)) := by
  intro fs
  induction fs with
  | nil =>
    intro crs
    exact ⟨fun v _ c hc => by simp [processFunctions] at hc,
      fun c hc => by simp [processFunctions] at hc⟩
  | cons f fs ih =>
    intro crs
    rcases hpf : processFunction b ik crs f with ⟨res, evs⟩
    obtain ⟨hok1, hfail1⟩ := processFunction_failopt b ik crs f
    rw [hpf] at hok1 hfail1
    cases res with
    | error err =>
      refine ⟨?_, ?_⟩ <;> simp only [processFunctions, hpf]
      · intro v hv
        simp at hv
      · exact hfail1
    | ok v =>
      obtain ⟨pf, crs'⟩ := v
      have hnf1 : ∀ c, Event.optimizeCall c none ∉ evs := hok1 (pf, crs') rfl
      obtain ⟨hok2, hfail2⟩ := ih crs'
      rcases hrec : processFunctions b ik crs' fs with ⟨res', evs'⟩
      rw [hrec] at hok2 hfail2
      cases res' with
      | error err =>
        refine ⟨?_, ?_⟩ <;> simp only [processFunctions, hpf, hrec]
        · intro v hv
          simp at hv
        · exact failopt_append hnf1 hfail2
      | ok v' =>
        obtain ⟨pfs', crs''⟩ := v'
        have hnf2 : ∀ c, Event.optimizeCall c none ∉ evs' := hok2 (pfs', crs'') rfl
        refine ⟨?_, ?_⟩ <;> simp only [processFunctions, hpf, hrec]
        · intro v _ c hc
          rcases List.mem_append.mp hc with h | h
          · exact absurd h (hnf1 c)
          · exact absurd h (hnf2 c)
        · exact failopt_append hnf1 hfail2

theorem processContracts_failopt (b : Backend) (ik : Bool) :
    ∀ (cs : List CompiledContract) (crs : CRS),
      (∀ v, (processContracts b ik crs cs).1 = .ok v →
        ∀ c, Event.optimizeCall c none ∉ (processContracts b ik crs cs).2) ∧
      (∀ c, Event.optimizeCall c none ∈ (processContracts b ik crs cs).2 →
        (processContracts b ik crs cs).2.getLast? = some (.optimizeCall c none)) := by
  intro cs
  induction cs with
  | nil =>
    intro crs
    exact ⟨fun v _ c hc => by simp [processContracts] at hc,
      fun c hc => by simp [processContracts] at hc⟩
  | cons c cs ih =>
    intro crs
    rcases hfs : processFunctions b ik crs c.functions with ⟨res, evs⟩
    obtain ⟨hok1, hfail1⟩ := processFunctions_failopt b ik c.functions crs
    rw [hfs] at hok1 hfail1
    cases res with
    | error err =>
      refine ⟨?_, ?_⟩ <;> simp only [processContracts, hfs]
      · intro v hv
        simp at hv
      · exact hfail1
    | ok v =>
      obtain ⟨pfs, crs'⟩ := v
      have hnf1 : ∀ c₀, Event.optimizeCall c₀ none ∉ evs := hok1 (pfs, crs') rfl
      obtain ⟨hok2, hfail2⟩ := ih crs'
      rcases hrec : processContracts b ik crs' cs with ⟨res', evs'⟩
      rw [hrec] at hok2 hfail2
      cases res' with
      | error err =>
        refine ⟨?_, ?_⟩ <;> simp only [processContracts, hfs, hrec]
        · intro v hv
          simp at hv
        · exact failopt_append hnf1 hfail2
      | ok v' =>
        obtain ⟨pcs', crs''⟩ := v'
        have hnf2 : ∀ c₀, Event.optimizeCall c₀ none ∉ evs' := hok2 (pcs', crs'') rfl
        refine ⟨?_, ?_⟩ <;> simp only [processContracts, hfs, hrec]
        · intro v _ c₀ hc
          rcases List.mem_append.mp hc with h | h
          · exact absurd h (hnf1 c₀)
          · exact absurd h (hnf2 c₀)
        · exact failopt_append hnf1 hfail2

theorem compile_package_failopt (b : Backend) (fe : Frontend) (pkg : Package) (dw : Bool) :
    (∀ v, (compile_package b fe pkg dw).1 = .ok v →
      ∀ c, Event.optimizeCall c none ∉ (compile_package b fe pkg dw).2) ∧
    (∀ c, Event.optimizeCall c none ∈ (compile_package b fe pkg dw).2 →
      (compile_package b fe pkg dw).2.getLast? = some (.optimizeCall c none) ∧
      (compile_package b fe pkg dw).1 =
        .panicked "Backend does not support an opcode that is in the IR") := by
  rcases compile_package_shape b fe pkg dw with ⟨_, heq⟩ | ⟨_, errs, _, heq⟩ |
    ⟨_, prog₀, w, _, hrest⟩
  · simp only [heq]
    exact ⟨fun v hv => by simp at hv, fun c hc => by simp at hc⟩
  · simp only [heq]
    exact ⟨fun v hv => by simp at hv, fun c hc => by simp at hc⟩
  · rcases hrest with ⟨_, heq⟩ | ⟨c', ls, _, ⟨_, heq⟩ | ⟨ids, _, heq⟩⟩ <;> simp only [heq]
    · refine ⟨fun v hv => by simp at hv, ?_⟩
      intro c hc
      simp only [List.mem_cons, List.not_mem_nil, or_false] at hc
      rcases hc with hc | hc
      · simp at hc
      · injection hc with h1 h2
        subst h1
        exact ⟨rfl, by trivial⟩
    · exact ⟨fun v hv => by simp at hv, fun c hc => by simp at hc⟩
    · exact ⟨fun v _ c hc => by simp at hc, fun c hc => by simp at hc⟩

theorem processPackage_failopt (b : Backend) (fe : Frontend) (ik dw : Bool) (crs : CRS)
    (pkg : Package) :
    (∀ v, (processPackage b fe ik dw crs pkg).1 = .ok v →
      ∀ c, Event.optimizeCall c none ∉ (processPackage b fe ik dw crs pkg).2) ∧
    (∀ c, Event.optimizeCall c none ∈ (processPackage b fe ik dw crs pkg).2 →
      (processPackage b fe ik dw crs pkg).2.getLast? = some (.optimizeCall c none) ∧
      ∀ v, (processPackage b fe ik dw crs pkg).1 ≠ .ok v) := by
  by_cases hct : pkg.is_contract = true
  · rcases hfe : report_errors (fe.compileContracts pkg) dw with err | contracts
    · refine ⟨fun v hv => by simp [processPackage, hct, hfe] at hv, ?_⟩
      intro c hc
      simp [processPackage, hct, hfe] at hc
    · obtain ⟨hok1, hfail1⟩ := processContracts_failopt b ik contracts crs
      rcases hpc : processContracts b ik crs contracts with ⟨res, evs⟩
      rw [hpc] at hok1 hfail1
      cases res with
      | error err =>
        refine ⟨?_, ?_⟩ <;> simp only [processPackage, hct, if_true, hfe, hpc]
        · intro v hv
          simp at hv
        · intro c hc
          exact ⟨failopt_cons (by rfl) hfail1 c hc, fun v hv => by simp at hv⟩
      | ok v =>
        obtain ⟨pcs, crs'⟩ := v
        have hnf1 : ∀ c₀, Event.optimizeCall c₀ none ∉ evs := hok1 (pcs, crs') rfl
        have hnfs : ∀ c₀, Event.optimizeCall c₀ none ∉ saveContracts pkg.name pcs := by
          intro c₀ hc
          obtain ⟨fl, cc, he⟩ := saveContracts_mem hc
          simp at he
        refine ⟨?_, ?_⟩ <;> simp only [processPackage, hct, if_true, hfe, hpc]
        · intro v _ c₀ hc
          rcases List.mem_cons.mp hc with hc | hc
          · simp at hc
          · rcases List.mem_append.mp hc with h | h
            · exact absurd h (hnf1 c₀)
            · exact absurd h (hnfs c₀)
        · intro c₀ hc
          rcases List.mem_cons.mp hc with hc | hc
          · simp at hc
          · rcases List.mem_append.mp hc with h | h
            · exact absurd h (hnf1 c₀)
            · exact absurd h (hnfs c₀)
  · rw [Bool.not_eq_true] at hct
    obtain ⟨hok1, hfail1⟩ := compile_package_failopt b fe pkg dw
    rcases hcp : compile_package b fe pkg dw with ⟨res, evs⟩
    rw [hcp] at hok1 hfail1
    cases res with
    | panicked m =>
      refine ⟨?_, ?_⟩ <;> simp only [processPackage, hct, Bool.false_eq_true, if_false, hcp]
      · intro v hv
        simp at hv
      · intro c hc
        exact ⟨(hfail1 c hc).1, fun v hv => by simp at hv⟩
    | error err =>
      refine ⟨?_, ?_⟩ <;> simp only [processPackage, hct, Bool.false_eq_true, if_false, hcp]
      · intro v hv
        simp at hv
      · intro c hc
        obtain ⟨_, habs⟩ := hfail1 c hc
        simp at habs
    | ok program =>
      have hnf1 : ∀ c₀, Event.optimizeCall c₀ none ∉ evs := hok1 program rfl
      rcases hu : update_common_reference_string b crs program.circuit with msg | crs'
      · refine ⟨?_, ?_⟩ <;>
          simp only [processPackage, hct, Bool.false_eq_true, if_false, hcp, hu]
        · intro v hv
          simp at hv
        · intro c hc
          exact absurd hc (hnf1 c)
      · rcases hp : preprocess_program b ik crs' program with msg | pp <;>
          refine ⟨?_, ?_⟩ <;>
          simp only [processPackage, hct, Bool.false_eq_true, if_false, hcp, hu, hp]
        · intro v hv
          simp at hv
        · intro c hc
          rcases List.mem_append.mp hc with h | h
          · exact absurd h (hnf1 c)
          · simp at h
        · intro v _ c hc
          rcases List.mem_append.mp hc with h | h
          · exact absurd h (hnf1 c)
          · simp at h
        · intro c hc
          rcases List.mem_append.mp hc with h | h
          · exact absurd h (hnf1 c)
          · simp at h

theorem runLoop_failopt (b : Backend) (fe : Frontend) (ik dw : Bool) :
    ∀ (ps : List Package) (crs : CRS),
      (∀ v, (runLoop b fe ik dw crs ps).1 = .ok v →
        ∀ c, Event.optimizeCall c none ∉ (runLoop b fe ik dw crs ps).2) ∧
      (∀ c, Event.optimizeCall c none ∈ (runLoop b fe ik dw crs ps).2 →
        (runLoop b fe ik dw crs ps).2.getLast? = some (.optimizeCall c none) ∧
        ∀ v, (runLoop b fe ik dw crs ps).1 ≠ .ok v) := by
  intro ps
  induction ps with
  | nil =>
    intro crs
    exact ⟨fun v _ c hc => by simp [runLoop] at hc, fun c hc => by simp [runLoop] at hc⟩
  | cons p ps ih =>
    intro crs
    rcases hpp : processPackage b fe ik dw crs p with ⟨res, evs⟩
    obtain ⟨hok1, hfail1⟩ := processPackage_failopt b fe ik dw crs p
    rw [hpp] at hok1 hfail1
    cases res with
    | panicked m =>
      refine ⟨?_, ?_⟩ <;> simp only [runLoop, hpp]
      · intro v hv
        simp at hv
      · intro c hc
        exact ⟨(hfail1 c hc).1, fun v hv => by simp at hv⟩
    | error err =>
      refine ⟨?_, ?_⟩ <;> simp only [runLoop, hpp]
      · intro v hv
        simp at hv
      · intro c hc
        exact ⟨(hfail1 c hc).1, fun v hv => by simp at hv⟩
    | ok crs' =>
      have hnf1 : ∀ c₀, Event.optimizeCall c₀ none ∉ evs := hok1 crs' rfl
      obtain ⟨hok2, hfail2⟩ := ih crs'
      rcases hrec : runLoop b fe ik dw crs' ps with ⟨res', evs'⟩
      rw [hrec] at hok2 hfail2
      refine ⟨?_, ?_⟩ <;> simp only [runLoop, hpp, hrec]
      · intro v hv c₀ hc
        rcases List.mem_append.mp hc with h | h
        · exact absurd h (hnf1 c₀)
        · exact hok2 v hv c₀ h
      · intro c₀ hc
        have hterm : (evs ++ evs').getLast? = some (.optimizeCall c₀ none) := by
          rcases List.mem_append.mp hc with h | h
          · exact absurd h (hnf1 c₀)
          · rw [List.getLast?_append_of_ne_nil _ (List.ne_nil_of_mem h)]
            exact (hfail2 c₀ h).1
        refine ⟨hterm, ?_⟩
        rcases List.mem_append.mp hc with h | h
        · exact absurd h (hnf1 c₀)
        · exact (hfail2 c₀ h).2

/-- Claim C3, counterexample: the claim says an opcode kind the optimizer
cannot translate makes optimization fail with an error value surfaced as a
`CompilationError` to the caller, not a panic.  On the binary path this is
false: `compile_package` calls `.expect` on the optimizer result (line 137),
so this concrete build of a binary package under a backend that rejects its
circuit aborts with a panic instead of returning the error. -/
theorem optimize_failure_panics_counterexample :
    (run backendFail frontendA false false [] [pkgB]).1 =
      .panicked "Backend does not support an opcode that is in the IR" := by decide

/-- Claim C3 (amended): when the optimizer cannot translate a circuit,
`optimize_circuit` itself returns the `CompilationError` value and produces no
circuit; at the build level a failed optimizer call is the final event of the
trace — nothing further is emitted (no artifact, no cache write) and the
result is not success.  However, on the binary path `compile_package` panics
on that failure via `.expect` instead of surfacing the error value. -/
theorem optimize_failure_behavior (b : Backend) (fe : Frontend) (ik dw : Bool)
    (cached : CRS) (ws : List Package) :
    (∀ c, b.acvmCompile c = none →
      optimize_circuit b c = .error (.NargoError .CompilationError)) ∧
    (∀ c, Event.optimizeCall c none ∈ (run b fe ik dw cached ws).2 →
      (run b fe ik dw cached ws).2.getLast? = some (.optimizeCall c none) ∧
      (run b fe ik dw cached ws).1 ≠ .ok ()) ∧
    (∀ pkg prog w, pkg.is_contract = false → pkg.is_library = false →
      fe.compileMain pkg = .ok (prog, w) → b.acvmCompile prog.circuit = none →
      (compile_package b fe pkg dw).1 =
        .panicked "Backend does not support an opcode that is in the IR") := by
  refine ⟨?_, ?_, ?_⟩
  · intro c h
    simp [optimize_circuit, h]
  · intro c hc
    rcases hrl : runLoop b fe ik dw cached ws with ⟨res, evs⟩
    obtain ⟨hok, hfail⟩ := runLoop_failopt b fe ik dw ws cached
    rw [hrl] at hok hfail
    cases res with
    | panicked m =>
      simp only [run, hrl] at hc ⊢
      rcases List.mem_cons.mp hc with h | h
      · simp at h
      · refine ⟨?_, by simp⟩
        rw [show Event.readCrsCache cached :: evs = [Event.readCrsCache cached] ++ evs
          from rfl, List.getLast?_append_of_ne_nil _ (List.ne_nil_of_mem h)]
        exact (hfail c h).1
    | error e =>
      simp only [run, hrl] at hc ⊢
      rcases List.mem_cons.mp hc with h | h
      · simp at h
      · refine ⟨?_, by simp⟩
        rw [show Event.readCrsCache cached :: evs = [Event.readCrsCache cached] ++ evs
          from rfl, List.getLast?_append_of_ne_nil _ (List.ne_nil_of_mem h)]
        exact (hfail c h).1
    | ok crs' =>
      simp only [run, hrl] at hc
      exfalso
      rcases List.mem_cons.mp hc with h | h
      · simp at h
      · rcases List.mem_append.mp h with h' | h'
        · exact hok crs' rfl c h'
        · simp at h'
  · intro pkg prog w _ hlib hfe hopt
    simp [compile_package, hlib, report_errors, hfe, optimize_circuit, hopt]

/-- Claim C3 witness: the amended claim evaluated concretely — the optimizer
failure is an error value from `optimize_circuit`, and the binary path panics
on it. -/
theorem optimize_failure_behavior_witness :
    optimize_circuit backendFail ⟨[7, 8]⟩ = .error (.NargoError .CompilationError) ∧
    (compile_package backendFail frontendA pkgB false).1 =
      .panicked "Backend does not support an opcode that is in the IR" := by
  obtain ⟨h1, h2, h3⟩ := optimize_failure_behavior backendFail frontendA false false [] [pkgB]
  exact ⟨h1 ⟨[7, 8]⟩ rfl, h3 pkgB progA [] rfl rfl rfl rfl⟩

/-- Claim C6: for a binary package whose frontend compilation succeeded and
whose optimization returned a label list, an `Unresolved` label surviving
optimization makes `compile_package` abort with the fatal `unreachable` panic
rather than return an error; and under the precondition that every label is
`Resolved` the panic branch is unreachable and `compile_package` returns
normally. -/
theorem unresolved_label_is_fatal (b : Backend) (fe : Frontend) (pkg : Package) (dw : Bool)
    (prog : CompiledProgram) (w : Warnings) (c' : Circuit) (ls : List OpcodeLabel)
    (hlib : pkg.is_library = false) (hfe : fe.compileMain pkg = .ok (prog, w))
    (hopt : b.acvmCompile prog.circuit = some (c', ls)) :
    (OpcodeLabel.Unresolved ∈ ls →
      (compile_package b fe pkg dw).1 =
        .panicked "Compiled circuit opcodes must resolve to some index") ∧
    (OpcodeLabel.Unresolved ∉ ls →
      ∃ p, (compile_package b fe pkg dw).1 = .ok p) := by
  constructor
  · intro hmem
    have hres : resolveLabels ls = none := (resolveLabels_eq_none_iff ls).mpr hmem
    simp [compile_package, hlib, report_errors, hfe, optimize_circuit, hopt, hres]
  · intro hmem
    rcases hres : resolveLabels ls with _ | ids
    · exact absurd ((resolveLabels_eq_none_iff ls).mp hres) hmem
    · exact ⟨{ circuit := c', debug := prog.debug.update_acir ids },
        by simp [compile_package, hlib, report_errors, hfe, optimize_circuit, hopt, hres]⟩

/-- Claim C6 witness: a backend returning an `Unresolved` label makes the
concrete binary build panic with the `unreachable` message, and the ordinary
backend (all labels resolved) returns normally. -/
theorem unresolved_label_is_fatal_witness :
    (compile_package backendUnresolved frontendA pkgB false).1 =
      .panicked "Compiled circuit opcodes must resolve to some index" ∧
    ∃ p, (compile_package backendA frontendA pkgB false).1 = .ok p := by
  constructor
  · exact (unresolved_label_is_fatal backendUnresolved frontendA pkgB false progA []
      ⟨[7, 8]⟩ [.Unresolved] rfl rfl rfl).1 (by decide)
  · exact (unresolved_label_is_fatal backendA frontendA pkgB false progA []
      ⟨[8]⟩ [.Resolved 1] rfl rfl rfl).2 (by decide)

/-- Claim C7: a workspace holding only a library package fails with
`LibraryCrate` for that package before any compilation or optimization is
attempted: the whole trace is the CRS cache read alone — no frontend call, no
optimizer call, no artifact save and no cache write — and the error is the
`LibraryCrate` value naming the package. -/
theorem library_package_rejected (b : Backend) (fe : Frontend) (ik dw : Bool)
    (cached : CRS) (n : String) :
    run b fe ik dw cached [{ name := n, ptype := .Library }] =
      (.error (.CompileError (.LibraryCrate n)), [.readCrsCache cached]) := rfl

/-- Claim C7 witness: the library rejection evaluated on a concrete
workspace. -/
theorem library_package_rejected_witness :
    run backendA frontendA false false [] [pkgL] =
      (.error (.CompileError (.LibraryCrate "l")), [.readCrsCache []]) :=
  library_package_rejected backendA frontendA false false [] "l"

/-- Claim C1 (code bug): the claim — and the spec — say that with
`denyWarnings` set, any frontend warning must make `report_errors` return an
error so the package's build fails.  The code discards the count returned by
`report_all` on the success path (line 176) and returns `Ok` unconditionally:
here a result carrying one warning is accepted under `deny_warnings = true`
even though `report_all` reports it as an error, exactly as it is accepted
with `deny_warnings = false`. -/
theorem deny_warnings_has_no_effect_on_success :
    report_errors (Except.ok ((42 : Nat), [⟨true⟩])) true = .ok 42 ∧
    report_all [⟨true⟩] true = 1 ∧
    report_errors (Except.ok ((42 : Nat), [⟨true⟩])) false = .ok 42 :=
  ⟨rfl, rfl, rfl⟩

/-! The backend identifier stamped on contract artifacts. -/

theorem saveContracts_mem_contract {n : String} {pcs : List PreprocessedContract}
    {fl : String} {c : PreprocessedContract}
    (h : Event.saveContract fl c ∈ saveContracts n pcs) : c ∈ pcs := by
  induction pcs with
  | nil => simp [saveContracts] at h
  | cons p ps ih =>
    rcases List.mem_cons.mp h with h | h
    · injection h with h1 h2
      rw [h2]
      exact List.mem_cons_self p ps
    · exact List.mem_cons_of_mem p (ih h)

theorem processContracts_backend_field (b : Backend) (ik : Bool) :
    ∀ (cs : List CompiledContract) (crs : CRS) (pcs : List PreprocessedContract) (crs'' : CRS),
      (processContracts b ik crs cs).1 = .ok (pcs, crs'') →
      ∀ pc ∈ pcs, pc.backend = BACKEND_IDENTIFIER := by
  intro cs
  induction cs with
  | nil =>
    intro crs pcs crs'' h pc hpc
    simp only [processContracts] at h
    obtain ⟨h1, h2⟩ := (by simpa using h : _ ∧ _)
    subst h1
    cases hpc
  | cons c cs ih =>
    intro crs pcs crs'' h pc hpc
    rcases hfs : processFunctions b ik crs c.functions with ⟨res, evs⟩
    cases res with
    | error err =>
      simp only [processContracts, hfs] at h
      simp at h
    | ok v =>
      obtain ⟨pfs, crs'⟩ := v
      rcases hrec : processContracts b ik crs' cs with ⟨res', evs'⟩
      cases res' with
      | error err =>
        simp only [processContracts, hfs, hrec] at h
        simp at h
      | ok v' =>
        obtain ⟨pcs', crs2⟩ := v'
        simp only [processContracts, hfs, hrec] at h
        obtain ⟨h1, h2⟩ := (by simpa using h : _ ∧ _)
        subst h1
        rcases List.mem_cons.mp hpc with hpc' | hpc'
        · rw [hpc']
        · exact ih crs' pcs' crs2 (by rw [hrec]) pc hpc'

theorem processPackage_save_backend (b : Backend) (fe : Frontend) (ik dw : Bool)
    (crs : CRS) (pkg : Package) :
    ∀ fl c, Event.saveContract fl c ∈ (processPackage b fe ik dw crs pkg).2 →
      c.backend = BACKEND_IDENTIFIER := by
  intro fl c hc
  by_cases hct : pkg.is_contract = true
  · rcases hfe : report_errors (fe.compileContracts pkg) dw with err | contracts
    · simp [processPackage, hct, hfe] at hc
    · rcases hpc : processContracts b ik crs contracts with ⟨res, evs⟩
      have hnos : ∀ e ∈ evs, e.isSaveContract = false := by
        have h := processContracts_nosave b ik contracts crs
        rw [hpc] at h
        exact h
      cases res with
      | error err =>
        simp only [processPackage, hct, if_true, hfe, hpc] at hc
        rcases List.mem_cons.mp hc with h | h
        · simp at h
        · have hh := hnos _ h
          simp [Event.isSaveContract] at hh
      | ok v =>
        obtain ⟨pcs, crs'⟩ := v
        simp only [processPackage, hct, if_true, hfe, hpc] at hc
        rcases List.mem_cons.mp hc with h | h
        · simp at h
        · rcases List.mem_append.mp h with h' | h'
          · have hh := hnos _ h'
            simp [Event.isSaveContract] at hh
          · exact processContracts_backend_field b ik contracts crs pcs crs'
              (by rw [hpc]) c (saveContracts_mem_contract h')
  · rw [Bool.not_eq_true] at hct
    rcases hcp : compile_package b fe pkg dw with ⟨res, evs⟩
    have hnos : ∀ e ∈ evs, e.isSaveContract = false := by
      have h := compile_package_forall b fe pkg dw (fun e => e.isSaveContract = false)
        (fun _ => rfl) (fun _ _ => rfl)
      rw [hcp] at h
      exact h
    cases res with
    | panicked m =>
      simp only [processPackage, hct, Bool.false_eq_true, if_false, hcp] at hc
      have hh := hnos _ hc
      simp [Event.isSaveContract] at hh
    | error err =>
      simp only [processPackage, hct, Bool.false_eq_true, if_false, hcp] at hc
      have hh := hnos _ hc
      simp [Event.isSaveContract] at hh
    | ok program =>
      rcases hu : update_common_reference_string b crs program.circuit with msg | crs'
      · simp only [processPackage, hct, Bool.false_eq_true, if_false, hcp, hu] at hc
        have hh := hnos _ hc
        simp [Event.isSaveContract] at hh
      · rcases hp : preprocess_program b ik crs' program with msg | pp <;>
          simp only [processPackage, hct, Bool.false_eq_true, if_false, hcp, hu, hp] at hc <;>
          rcases List.mem_append.mp hc with h | h
        · have hh := hnos _ h
          simp [Event.isSaveContract] at hh
        · simp at h
        · have hh := hnos _ h
          simp [Event.isSaveContract] at hh
        · simp at h

/-- Every contract artifact saved by any build carries the constant
`BACKEND_IDENTIFIER` in its backend field, whatever backend actually ran. -/
theorem run_save_backend_constant (b : Backend) (fe : Frontend) (ik dw : Bool)
    (cached : CRS) (ws : List Package) :
    ∀ fl c, Event.saveContract fl c ∈ (run b fe ik dw cached ws).2 →
      c.backend = BACKEND_IDENTIFIER := by
  intro fl c hc
  rcases hrl : runLoop b fe ik dw cached ws with ⟨res, evs⟩
  have hQ : ∀ e ∈ evs, ∀ fl' c', e = Event.saveContract fl' c' →
      c'.backend = BACKEND_IDENTIFIER := by
    have h := runLoop_forall b fe ik dw
      (fun e => ∀ fl' c', e = Event.saveContract fl' c' → c'.backend = BACKEND_IDENTIFIER)
      (fun crs pkg e he fl' c' heq => by
        subst heq
        exact processPackage_save_backend b fe ik dw crs pkg fl' c' he) ws cached
    rw [hrl] at h
    exact h
  cases res with
  | panicked m =>
    simp only [run, hrl] at hc
    rcases List.mem_cons.mp hc with h | h
    · simp at h
    · exact hQ _ h fl c rfl
  | error e =>
    simp only [run, hrl] at hc
    rcases List.mem_cons.mp hc with h | h
    · simp at h
    · exact hQ _ h fl c rfl
  | ok crs' =>
    simp only [run, hrl] at hc
    rcases List.mem_cons.mp hc with h | h
    · simp at h
    · rcases List.mem_append.mp h with h' | h'
      · exact hQ _ h' fl c rfl
      · simp at h'

/-- Claim C9 (code bug): the claim — and the spec's invariant — say each
artifact's backend identifier names the backend whose CRS and optimizer
produced it.  The code instead stamps the constant `BACKEND_IDENTIFIER`
("acvm-backend-barretenberg") on every contract artifact, regardless of the
backend in use (the source's TODO(#1388) acknowledges it should be pulled
from the backend): here a build under a backend identifying itself as
"mock-backend" emits an artifact labelled "acvm-backend-barretenberg",
so artifacts from different backends would share one identifier
(see also `run_save_backend_constant`). -/
theorem backend_identifier_is_hardcoded :
    backendA.identifier = "mock-backend" ∧
    Event.saveContract "p-Main" pc0 ∈ (run backendA frontendA false false [] [pkgC]).2 ∧
    pc0.backend = BACKEND_IDENTIFIER ∧
    BACKEND_IDENTIFIER ≠ backendA.identifier := by decide

/-! Per-function block structure of contract processing. -/

theorem CompleteEvs.append_complete {l₁ l₂ : List Event} (h₁ : CompleteEvs l₁)
    (h₂ : CompleteEvs l₂) : CompleteEvs (l₁ ++ l₂) := by
  induction h₁ with
  | nil => simpa using h₂
  | other he _ ih => exact CompleteEvs.other he ih
  | funcFail _ ih => exact CompleteEvs.funcFail ih
  | funcFull _ ih => exact CompleteEvs.funcFull ih

theorem GoodEvs.complete_append {l₁ l₂ : List Event} (h₁ : CompleteEvs l₁)
    (h₂ : GoodEvs l₂) : GoodEvs (l₁ ++ l₂) := by
  rcases h₂ with h₂ | ⟨es₀, f, c', ls, hc, heq⟩
  · exact Or.inl (h₁.append_complete h₂)
  · subst heq
    exact Or.inr ⟨l₁ ++ es₀, f, c', ls, h₁.append_complete hc, by rw [List.append_assoc]⟩

theorem GoodEvs.cons_other {e : Event} {l : List Event} (he : e.isOtherEv = true)
    (h : GoodEvs l) : GoodEvs (e :: l) :=
  GoodEvs.complete_append (CompleteEvs.other he CompleteEvs.nil) h

theorem complete_of_allOther {l : List Event} (h : ∀ e ∈ l, e.isOtherEv = true) :
    CompleteEvs l := by
  induction l with
  | nil => exact CompleteEvs.nil
  | cons e es ih =>
    exact CompleteEvs.other (h e (List.mem_cons_self e es))
      (ih fun x hx => h x (List.mem_cons_of_mem e hx))

theorem processFunction_good (b : Backend) (ik : Bool) (crs : CRS) (f : ContractFunction) :
    GoodEvs (processFunction b ik crs f).2 ∧
    (∀ v, (processFunction b ik crs f).1 = .ok v →
      CompleteEvs (processFunction b ik crs f).2) := by
  rcases processFunction_shape b ik crs f with ⟨e₀, _, heq⟩ | ⟨c', ls, msg, _, _, heq⟩ |
    ⟨c', ls, crs', res, _, _, _, heq⟩ <;> simp only [heq]
  · exact ⟨Or.inl (CompleteEvs.funcFail CompleteEvs.nil), fun v hv => by simp at hv⟩
  · exact ⟨Or.inr ⟨[], f, c', ls, CompleteEvs.nil, rfl⟩, fun v hv => by simp at hv⟩
  · exact ⟨Or.inl (CompleteEvs.funcFull CompleteEvs.nil),
      fun v _ => CompleteEvs.funcFull CompleteEvs.nil⟩

theorem processFunctions_good (b : Backend) (ik : Bool) :
    ∀ (fs : List ContractFunction) (crs : CRS),
      GoodEvs (processFunctions b ik crs fs).2 ∧
      (∀ v, (processFunctions b ik crs fs).1 = .ok v →
        CompleteEvs (processFunctions b ik crs fs).2) := by
  intro fs
  induction fs with
  | nil =>
    intro crs
    exact ⟨Or.inl CompleteEvs.nil, fun v _ => CompleteEvs.nil⟩
  | cons f fs ih =>
    intro crs
    rcases hpf : processFunction b ik crs f with ⟨res, evs⟩
    obtain ⟨hg1, hc1⟩ := processFunction_good b ik crs f
    rw [hpf] at hg1 hc1
    cases res with
    | error err =>
      refine ⟨?_, ?_⟩ <;> simp only [processFunctions, hpf]
      · exact hg1
      · intro v hv
        simp at hv
    | ok v =>
      obtain ⟨pf, crs'⟩ := v
      have hcomp1 : CompleteEvs evs := hc1 (pf, crs') rfl
      obtain ⟨hg2, hc2⟩ := ih crs'
      rcases hrec : processFunctions b ik crs' fs with ⟨res', evs'⟩
      rw [hrec] at hg2 hc2
      cases res' with
      | error err =>
        refine ⟨?_, ?_⟩ <;> simp only [processFunctions, hpf, hrec]
        · exact GoodEvs.complete_append hcomp1 hg2
        · intro v hv
          simp at hv
      | ok v' =>
        obtain ⟨pfs', crs''⟩ := v'
        refine ⟨?_, ?_⟩ <;> simp only [processFunctions, hpf, hrec]
        · exact GoodEvs.complete_append hcomp1 hg2
        · intro v _
          exact hcomp1.append_complete (hc2 (pfs', crs'') rfl)

theorem processContracts_good (b : Backend) (ik : Bool) :
    ∀ (cs : List CompiledContract) (crs : CRS),
      GoodEvs (processContracts b ik crs cs).2 ∧
      (∀ v, (processContracts b ik crs cs).1 = .ok v →
        CompleteEvs (processContracts b ik crs cs).2) := by
  intro cs
  induction cs with
  | nil =>
    intro crs
    exact ⟨Or.inl CompleteEvs.nil, fun v _ => CompleteEvs.nil⟩
  | cons c cs ih =>
    intro crs
    rcases hfs : processFunctions b ik crs c.functions with ⟨res, evs⟩
    obtain ⟨hg1, hc1⟩ := processFunctions_good b ik c.functions crs
    rw [hfs] at hg1 hc1
    cases res with
    | error err =>
      refine ⟨?_, ?_⟩ <;> simp only [processContracts, hfs]
      · exact hg1
      · intro v hv
        simp at hv
    | ok v =>
      obtain ⟨pfs, crs'⟩ := v
      have hcomp1 : CompleteEvs evs := hc1 (pfs, crs') rfl
      obtain ⟨hg2, hc2⟩ := ih crs'
      rcases hrec : processContracts b ik crs' cs with ⟨res', evs'⟩
      rw [hrec] at hg2 hc2
      cases res' with
      | error err =>
        refine ⟨?_, ?_⟩ <;> simp only [processContracts, hfs, hrec]
        · exact GoodEvs.complete_append hcomp1 hg2
        · intro v hv
          simp at hv
      | ok v' =>
        obtain ⟨pcs', crs''⟩ := v'
        refine ⟨?_, ?_⟩ <;> simp only [processContracts, hfs, hrec]
        · exact GoodEvs.complete_append hcomp1 hg2
        · intro v _
          exact hcomp1.append_complete (hc2 (pcs', crs'') rfl)

theorem compile_package_complete (b : Backend) (fe : Frontend) (pkg : Package) (dw : Bool) :
    CompleteEvs (compile_package b fe pkg dw).2 :=
  complete_of_allOther (compile_package_forall b fe pkg dw (fun e => e.isOtherEv = true)
    (fun _ => rfl) (fun _ _ => rfl))

theorem saveContracts_complete (n : String) (pcs : List PreprocessedContract) :
    CompleteEvs (saveContracts n pcs) :=
  complete_of_allOther (fun e he => by
    obtain ⟨fl, c, rfl⟩ := saveContracts_mem he
    rfl)

theorem processPackage_good (b : Backend) (fe : Frontend) (ik dw : Bool) (crs : CRS)
    (pkg : Package) :
    GoodEvs (processPackage b fe ik dw crs pkg).2 ∧
    (∀ v, (processPackage b fe ik dw crs pkg).1 = .ok v →
      CompleteEvs (processPackage b fe ik dw crs pkg).2) := by
  by_cases hct : pkg.is_contract = true
  · rcases hfe : report_errors (fe.compileContracts pkg) dw with err | contracts
    · refine ⟨?_, ?_⟩ <;> simp only [processPackage, hct, if_true, hfe]
      · exact Or.inl (CompleteEvs.other rfl CompleteEvs.nil)
      · intro v hv
        simp at hv
    · obtain ⟨hg1, hc1⟩ := processContracts_good b ik contracts crs
      rcases hpc : processContracts b ik crs contracts with ⟨res, evs⟩
      rw [hpc] at hg1 hc1
      cases res with
      | error err =>
        refine ⟨?_, ?_⟩ <;> simp only [processPackage, hct, if_true, hfe, hpc]
        · exact GoodEvs.cons_other rfl hg1
        · intro v hv
          simp at hv
      | ok v =>
        obtain ⟨pcs, crs'⟩ := v
        have hcomplete : CompleteEvs
            (Event.compileContractsCall pkg.name :: evs ++ saveContracts pkg.name pcs) := by
          rw [show Event.compileContractsCall pkg.name :: evs ++ saveContracts pkg.name pcs =
            (Event.compileContractsCall pkg.name :: evs) ++ saveContracts pkg.name pcs from rfl]
          exact (CompleteEvs.other (by rfl) (hc1 (pcs, crs') rfl)).append_complete
            (saveContracts_complete pkg.name pcs)
        refine ⟨?_, ?_⟩ <;> simp only [processPackage, hct, if_true, hfe, hpc]
        · exact Or.inl hcomplete
        · intro v _
          exact hcomplete
  · rw [Bool.not_eq_true] at hct
    rcases hcp : compile_package b fe pkg dw with ⟨res, evs⟩
    have hcomp : CompleteEvs evs := by
      have h := compile_package_complete b fe pkg dw
      rwa [hcp] at h
    cases res with
    | panicked m =>
      refine ⟨?_, ?_⟩ <;> simp only [processPackage, hct, Bool.false_eq_true, if_false, hcp]
      · exact Or.inl hcomp
      · intro v hv
        simp at hv
    | error err =>
      refine ⟨?_, ?_⟩ <;> simp only [processPackage, hct, Bool.false_eq_true, if_false, hcp]
      · exact Or.inl hcomp
      · intro v hv
        simp at hv
    | ok program =>
      rcases hu : update_common_reference_string b crs program.circuit with msg | crs'
      · refine ⟨?_, ?_⟩ <;>
          simp only [processPackage, hct, Bool.false_eq_true, if_false, hcp, hu]
        · exact Or.inl hcomp
        · intro v hv
          simp at hv
      · rcases hp : preprocess_program b ik crs' program with msg | pp
        · refine ⟨?_, ?_⟩ <;>
            simp only [processPackage, hct, Bool.false_eq_true, if_false, hcp, hu, hp]
          · exact Or.inl (hcomp.append_complete (complete_of_allOther (by
              intro e he
              simp only [List.mem_cons, List.not_mem_nil, or_false] at he
              rcases he with rfl | rfl <;> rfl)))
          · intro v hv
            simp at hv
        · have hcomplete : CompleteEvs (evs ++
              [Event.crsUpdate crs program.circuit crs',
               Event.preprocessProgramCall crs' program.circuit,
               Event.saveProgram pkg.name]) :=
            hcomp.append_complete (complete_of_allOther (by
              intro e he
              simp only [List.mem_cons, List.not_mem_nil, or_false] at he
              rcases he with rfl | rfl | rfl <;> rfl))
          refine ⟨?_, ?_⟩ <;>
            simp only [processPackage, hct, Bool.false_eq_true, if_false, hcp, hu, hp]
          · exact Or.inl hcomplete
          · intro v _
            exact hcomplete

theorem runLoop_good (b : Backend) (fe : Frontend) (ik dw : Bool) :
    ∀ (ps : List Package) (crs : CRS),
      GoodEvs (runLoop b fe ik dw crs ps).2 ∧
      (∀ v, (runLoop b fe ik dw crs ps).1 = .ok v →
        CompleteEvs (runLoop b fe ik dw crs ps).2) := by
  intro ps
  induction ps with
  | nil =>
    intro crs
    exact ⟨Or.inl CompleteEvs.nil, fun v _ => CompleteEvs.nil⟩
  | cons p ps ih =>
    intro crs
    rcases hpp : processPackage b fe ik dw crs p with ⟨res, evs⟩
    obtain ⟨hg1, hc1⟩ := processPackage_good b fe ik dw crs p
    rw [hpp] at hg1 hc1
    cases res with
    | panicked m =>
      refine ⟨?_, ?_⟩ <;> simp only [runLoop, hpp]
      · exact hg1
      · intro v hv
        simp at hv
    | error err =>
      refine ⟨?_, ?_⟩ <;> simp only [runLoop, hpp]
      · exact hg1
      · intro v hv
        simp at hv
    | ok crs' =>
      have hcomp1 : CompleteEvs evs := hc1 crs' rfl
      obtain ⟨hg2, hc2⟩ := ih crs'
      rcases hrec : runLoop b fe ik dw crs' ps with ⟨res', evs'⟩
      rw [hrec] at hg2 hc2
      refine ⟨?_, ?_⟩ <;> simp only [runLoop, hpp, hrec]
      · exact GoodEvs.complete_append hcomp1 hg2
      · intro v hv
        exact hcomp1.append_complete (hc2 v hv)

theorem savesAreTerminal_of_nosave {l : List Event}
    (h : ∀ e ∈ l, e.isSaveContract = false) : savesAreTerminal l = true := by
  induction l with
  | nil => rfl
  | cons e es ih =>
    have he := h e (List.mem_cons_self e es)
    simp only [savesAreTerminal, he, Bool.false_eq_true, if_false]
    exact ih fun x hx => h x (List.mem_cons_of_mem e hx)

theorem savesAreTerminal_of_split {l₁ l₂ : List Event}
    (h₁ : ∀ e ∈ l₁, e.isSaveContract = false) (h₂ : ∀ e ∈ l₂, e.isSaveContract = true) :
    savesAreTerminal (l₁ ++ l₂) = true := by
  induction l₁ with
  | nil =>
    simp only [List.nil_append]
    cases l₂ with
    | nil => rfl
    | cons e es =>
      simp only [savesAreTerminal, h₂ e (List.mem_cons_self e es), if_true]
      exact List.all_eq_true.mpr fun x hx => h₂ x (List.mem_cons_of_mem e hx)
  | cons e es ih =>
    have he := h₁ e (List.mem_cons_self e es)
    simp only [List.cons_append, savesAreTerminal, he, Bool.false_eq_true, if_false]
    exact ih fun x hx => h₁ x (List.mem_cons_of_mem e hx)

theorem processPackage_savesTerminal (b : Backend) (fe : Frontend) (ik dw : Bool)
    (crs : CRS) (pkg : Package) :
    savesAreTerminal (processPackage b fe ik dw crs pkg).2 = true := by
  by_cases hct : pkg.is_contract = true
  · rcases hfe : report_errors (fe.compileContracts pkg) dw with err | contracts
    · simp only [processPackage, hct, if_true, hfe]
      rfl
    · rcases hpc : processContracts b ik crs contracts with ⟨res, evs⟩
      have hnos : ∀ e ∈ evs, e.isSaveContract = false := by
        have h := processContracts_nosave b ik contracts crs
        rw [hpc] at h
        exact h
      cases res with
      | error err =>
        simp only [processPackage, hct, if_true, hfe, hpc]
        refine savesAreTerminal_of_nosave ?_
        intro e he
        rcases List.mem_cons.mp he with rfl | he'
        · rfl
        · exact hnos e he'
      | ok v =>
        obtain ⟨pcs, crs'⟩ := v
        simp only [processPackage, hct, if_true, hfe, hpc]
        refine savesAreTerminal_of_split ?_ ?_
        · intro e he
          rcases List.mem_cons.mp he with rfl | he'
          · rfl
          · exact hnos e he'
        · intro e he
          obtain ⟨fl, c, rfl⟩ := saveContracts_mem he
          rfl
  · rw [Bool.not_eq_true] at hct
    rcases hcp : compile_package b fe pkg dw with ⟨res, evs⟩
    have hnos : ∀ e ∈ evs, e.isSaveContract = false := by
      have h := compile_package_forall b fe pkg dw (fun e => e.isSaveContract = false)
        (fun _ => rfl) (fun _ _ => rfl)
      rw [hcp] at h
      exact h
    cases res with
    | panicked m =>
      simp only [processPackage, hct, Bool.false_eq_true, if_false, hcp]
      exact savesAreTerminal_of_nosave hnos
    | error err =>
      simp only [processPackage, hct, Bool.false_eq_true, if_false, hcp]
      exact savesAreTerminal_of_nosave hnos
    | ok program =>
      rcases hu : update_common_reference_string b crs program.circuit with msg | crs'
      · simp only [processPackage, hct, Bool.false_eq_true, if_false, hcp, hu]
        exact savesAreTerminal_of_nosave hnos
      · rcases hp : preprocess_program b ik crs' program with msg | pp <;>
          simp only [processPackage, hct, Bool.false_eq_true, if_false, hcp, hu, hp] <;>
          refine savesAreTerminal_of_nosave ?_ <;>
          intro e he <;> rcases List.mem_append.mp he with h | h
        · exact hnos e h
        · simp only [List.mem_cons, List.not_mem_nil, or_false] at h
          rcases h with rfl | rfl <;> rfl
        · exact hnos e h
        · simp only [List.mem_cons, List.not_mem_nil, or_false] at h
          rcases h with rfl | rfl | rfl <;> rfl

/-- Claim C2, counterexample: the claim says each contract function's debug
info is rewritten from the optimizer's opcode labels before preprocessing.
In the code (line 74) the labels are discarded (`optimize_circuit(..)?.0`)
and nothing rewrites the debug info: in this concrete build the optimizer
drops opcode 0 with label map [1], so a rewrite would give debug `[20]`, yet
the function reaches the preprocessor with its original debug `[10, 20]`
(two entries for a one-opcode optimized circuit). -/
theorem contract_debug_not_rewritten_counterexample :
    Event.preprocessFunction [1] g0 ∈ (run backendA frontendA false false [] [pkgC]).2 ∧
    g0.debug = f0.debug ∧
    DebugInfo.update_acir f0.debug [1] ≠ g0.debug ∧
    g0.debug.locations.length ≠ g0.bytecode.opcodes.length := by decide

/-- Claim C2 (amended): for every contract function, the orchestrator
performs in order: optimize the function's bytecode, update the CRS with
exactly the optimized circuit, and preprocess the function with its bytecode
replaced by the optimized circuit but its name and debug info untouched (the
optimizer's opcode labels are discarded and no debug rewrite occurs, contrary
to the original claim) — this is the block structure `GoodEvs`; and within
each package all contract-artifact saves happen only after every function has
been processed (they form the terminal segment of the package's events). -/
theorem contract_function_pipeline (b : Backend) (fe : Frontend) (ik dw : Bool)
    (cached : CRS) (ws : List Package) (crs : CRS) (pkg : Package) :
    GoodEvs (run b fe ik dw cached ws).2 ∧
    savesAreTerminal (processPackage b fe ik dw crs pkg).2 = true := by
  refine ⟨?_, processPackage_savesTerminal b fe ik dw crs pkg⟩
  rcases hrl : runLoop b fe ik dw cached ws with ⟨res, evs⟩
  obtain ⟨hg, hc⟩ := runLoop_good b fe ik dw ws cached
  rw [hrl] at hg hc
  cases res with
  | panicked m =>
    simp only [run, hrl]
    exact GoodEvs.cons_other rfl hg
  | error e =>
    simp only [run, hrl]
    exact GoodEvs.cons_other rfl hg
  | ok crs' =>
    simp only [run, hrl]
    exact Or.inl ((CompleteEvs.other (by rfl) (hc crs' rfl)).append_complete
      (CompleteEvs.other (by rfl) CompleteEvs.nil))

/-- Claim C2 witness: the amended pipeline property evaluated on a concrete
contract build. -/
theorem contract_function_pipeline_witness :
    GoodEvs (run backendA frontendA false false [] [pkgC]).2 ∧
    savesAreTerminal (processPackage backendA frontendA false false [] pkgC).2 = true :=
  contract_function_pipeline backendA frontendA false false [] [pkgC] [] pkgC

/-- Claim C8, counterexample: the claim says every compiled circuit's debug
info ends up with exactly one entry per opcode of the optimized circuit.  For
contract functions no rewrite happens (run lines 70-96 discard the labels),
so in this concrete build the function reaching the preprocessor has two
debug entries but a one-opcode optimized circuit. -/
theorem debug_length_law_counterexample :
    Event.preprocessFunction [1] g0 ∈ (run backendA frontendA false false [] [pkgC]).2 ∧
    g0.debug.locations.length = 2 ∧
    g0.bytecode.opcodes.length = 1 := by decide

/-- Claim C8 (amended): on the binary path, where the rewrite is performed
(`compile_package`), the rewritten debug info has exactly one entry per
opcode label — hence one per opcode of the optimized circuit whenever the
optimizer returns one label per optimized opcode, as its contract guarantees
— and each entry at position `j` is copied from the original debug entry at
the index its `Resolved` label points to (for in-range indices); no entry is
fabricated.  Contract functions' debug info is not rewritten at all. -/
theorem binary_debug_rewrite (b : Backend) (fe : Frontend) (pkg : Package) (dw : Bool)
    (prog₀ : CompiledProgram) (w : Warnings) (c' : Circuit) (ls : List OpcodeLabel)
    (ids : List Nat) (hlib : pkg.is_library = false)
    (hfe : fe.compileMain pkg = .ok (prog₀, w))
    (hopt : b.acvmCompile prog₀.circuit = some (c', ls))
    (hlen : ls.length = c'.opcodes.length)
    (hresolve : resolveLabels ls = some ids) :
    (compile_package b fe pkg dw).1 =
      .ok { circuit := c', debug := prog₀.debug.update_acir ids } ∧
    (prog₀.debug.update_acir ids).locations.length = c'.opcodes.length ∧
    ∀ j, j < ls.length → ∃ i, ls.get? j = some (.Resolved i) ∧
      (i < prog₀.debug.locations.length →
        (prog₀.debug.update_acir ids).locations.get? j = prog₀.debug.locations.get? i) := by
  obtain ⟨hlen2, hspec⟩ := resolveLabels_some_spec hresolve
  refine ⟨?_, ?_, ?_⟩
  · simp [compile_package, hlib, report_errors, hfe, optimize_circuit, hopt, hresolve]
  · simp [DebugInfo.update_acir, hlen2, hlen]
  · intro j hj
    obtain ⟨i, h1, h2⟩ := hspec j hj
    refine ⟨i, h1, ?_⟩
    intro hi
    have hval : (prog₀.debug.update_acir ids).locations.get? j =
        some ((prog₀.debug.locations.get? i).getD 0) := by
      show (ids.map fun k => (prog₀.debug.locations.get? k).getD 0).get? j = _
      rw [List.get?_map, h2]
      rfl
    rw [hval, List.get?_eq_get hi]
    rfl

/-- Claim C8 witness: the amended rewrite law evaluated on a concrete binary
build where the optimizer drops an opcode: the rewritten debug info has one
entry per optimized opcode. -/
theorem binary_debug_rewrite_witness :
    (compile_package backendA frontendA pkgB false).1 =
      .ok { circuit := ⟨[8]⟩, debug := progA.debug.update_acir [1] } ∧
    (progA.debug.update_acir [1]).locations.length = 1 := by
  obtain ⟨h1, h2, h3⟩ := binary_debug_rewrite backendA frontendA pkgB false progA []
    ⟨[8]⟩ [.Resolved 1] [1] rfl rfl (by decide) (by decide) (by decide)
  exact ⟨h1, h2⟩

end Nargo
